import Mathlib

/-!
# linearDecon.cpp: OTF interpolation, Wiener filter, apodization, deskew geometry

A shallow embedding of `src/linearDecon.cpp`.

* C++ `float`/`double` values are elements of an arbitrary linearly ordered
  field `F` with a floor function; arithmetic is exact (rounding, infinities
  and NaN are not represented).  The library functions `sqrt`, `sin`, `cos`
  and the constant `M_PI` are parameters of the definitions, so the same
  definitions run on `ℚ` and can be read on `ℝ` with `Real.sqrt`, `Real.sin`,
  `Real.cos` and either `Real.pi` or the `double` value `M_PI`.
* C++ `int`/`unsigned` values are integers without a width; every extent in
  the program is far below `2^31`.
* A `CImg<>` is its three extents and its samples addressed by `(x, y, z)`.
* `for (i = 0; i < n; i++)` is a left fold over `List.range n`.
* `findOptimalDimension` is declared in `linearDecon.h`, which is not part of
  the sources; it is a parameter wherever `main` calls it.
-/

namespace LinearDecon

/-! ## Data model -/

/-- A `std::complex` value. -/
structure Cplx (F : Type) where
  re : F
  im : F

namespace Cplx

variable {F : Type} [Field F]

/-- The value `std::complex<float>(0, 0)`. -/
def zero : Cplx F := ⟨0, 0⟩

/-- Sum `complex + complex`. -/
def add (a b : Cplx F) : Cplx F := ⟨a.re + b.re, a.im + b.im⟩

/-- Product `complex * float`. -/
def scale (a : Cplx F) (s : F) : Cplx F := ⟨a.re * s, a.im * s⟩

/-- Product `float * complex`. -/
def smul (s : F) (a : Cplx F) : Cplx F := ⟨s * a.re, s * a.im⟩

/-- Complex conjugate `std::conj`. -/
def conj (a : Cplx F) : Cplx F := ⟨a.re, -a.im⟩

/-- Product `complex * complex`. -/
def mul (a b : Cplx F) : Cplx F :=
  ⟨a.re * b.re - a.im * b.im, a.re * b.im + a.im * b.re⟩

/-- Quotient `complex / float`. -/
def divs (a : Cplx F) (s : F) : Cplx F := ⟨a.re / s, a.im / s⟩

end Cplx

/-- A `CImg<>`: extents and the sample at `(x, y, z)`. -/
structure CImg (F : Type) where
  width : ℕ
  height : ℕ
  depth : ℕ
  data : ℤ → ℤ → ℤ → F

/-- The assignment `image(x, y, z) = v`. -/
def CImg.set {F : Type} (g : CImg F) (x y z : ℤ) (v : F) : CImg F :=
  { g with data := fun x' y' z' => if x' = x ∧ y' = y ∧ z' = z then v else g.data x' y' z' }

/-- The OTF image as `wienerfilter` uses it: its extents, and its sample
buffer read through the cast `(std::complex<float>*) otf.data()`, entry
`n` of the complex array holding floats `2n` and `2n+1`. -/
structure OtfImg (F : Type) where
  width : ℕ
  height : ℕ
  cdata : ℤ → Cplx F

/-- The loop `for (i = 0; i < n; i++) body(i)` acting on a state. -/
def forLoop {σ : Type} (n : ℕ) (body : ℤ → σ → σ) (s : σ) : σ :=
  (List.range n).foldl (fun st i => body (i : ℤ) st) s

/-! ## `otfinterpolate` (lines 13-49) -/

section Otf

variable {F : Type} [LinearOrderedField F] [FloorRing F]

/-- What the bilinear branch of `otfinterpolate` works with: the two
fractional weights and the four entries of `indices`. -/
structure OtfLookup (F : Type) where
  ar : F
  az : F
  i00 : ℤ
  i01 : ℤ
  i10 : ℤ
  i11 : ℤ

/-- Lines 21-42 of `otfinterpolate`: `none` when the guard of line 24 fails
(the zero-fill branch), otherwise the weights and table indices that the
return statement of lines 44-45 reads. -/
def otfLookup (sqrtf : F → F) (kx ky kz : F) (nzotf nrotf : ℤ) : Option (OtfLookup F) :=
  let krindex : F := sqrtf (kx * kx + ky * ky)
  let kzindex : F := if kz < 0 then kz + (nzotf : F) else kz
  if krindex < ((nrotf - 1 : ℤ) : F) ∧ kzindex < (nzotf : F) then
    let irindex : ℤ := ⌊krindex⌋
    let izindex : ℤ := ⌊kzindex⌋
    let ar : F := krindex - (irindex : F)
    let az : F := kzindex - (izindex : F)
    if izindex = nzotf - 1 then
      some ⟨ar, az, irindex * nzotf + izindex, irindex * nzotf + 0,
        (irindex + 1) * nzotf + izindex, (irindex + 1) * nzotf + 0⟩
    else
      some ⟨ar, az, irindex * nzotf + izindex, irindex * nzotf + (izindex + 1),
        (irindex + 1) * nzotf + izindex, (irindex + 1) * nzotf + (izindex + 1)⟩
  else
    none

/-- The function `otfinterpolate`: bilinear interpolation of the
rotationally averaged OTF, or `0+0i` outside the guard of line 24. -/
def otfinterpolate (sqrtf : F → F) (otf : ℤ → Cplx F) (kx ky kz : F)
    (nzotf nrotf : ℤ) : Cplx F :=
  match otfLookup sqrtf kx ky kz nzotf nrotf with
  | some L =>
    Cplx.add
      (Cplx.smul (1 - L.ar) (Cplx.add (Cplx.scale (otf L.i00) (1 - L.az)) (Cplx.scale (otf L.i01) L.az)))
      (Cplx.smul L.ar (Cplx.add (Cplx.scale (otf L.i10) (1 - L.az)) (Cplx.scale (otf L.i11) L.az)))
  | none => Cplx.zero

end Otf


/-! ## `wienerfilter` (lines 51-104) -/

section Wiener

variable {F : Type} [LinearOrderedField F] [FloorRing F]

/-- Lines 80-99: the body of the innermost loop of `wienerfilter` at the
complex voxel `(j, i, k)`, with `kz` and `ky` as the two outer loops
computed them. -/
def wienerVoxel (sqrtf : F → F) (otf : OtfImg F) (dkx dky rcutoff w kxscale kyscale kzscale : F)
    (kz ky : F) (k i j : ℤ) (g : CImg F) : CImg F :=
  let kx : F := (j : F)
  let kr : F := sqrtf (kx * kx * dkx * dkx + ky * ky * dky * dky)
  if kr ≤ rcutoff then
    let otf_val : Cplx F :=
      otfinterpolate sqrtf otf.cdata (kx * kxscale) (ky * kyscale) (kz * kzscale)
        ((otf.width : ℤ) / 2) (otf.height : ℤ)
    let amp2 : F := otf_val.re * otf_val.re + otf_val.im * otf_val.im
    let A_star_g : Cplx F :=
      Cplx.mul (Cplx.conj otf_val) ⟨g.data (2 * j) i k, g.data (2 * j + 1) i k⟩
    let rho : F := kr / rcutoff
    let result : Cplx F := Cplx.scale (Cplx.divs A_star_g (amp2 + w)) (1 - rho)
    (g.set (2 * j) i k result.re).set (2 * j + 1) i k result.im
  else
    (g.set (2 * j) i k 0).set (2 * j + 1) i k 0

/-- The folding `( n > ext/2 ? n-ext : n )` of lines 76 and 78, computed on
`int` before the conversion to `float` (the operands are non-negative, so
`/` is the integer division of C). -/
def foldFreq (ext n : ℤ) : ℤ := if n > ext / 2 then n - ext else n

/-- The function `wienerfilter`; `g` is the half-spectrum and the result. -/
def wienerfilter (sqrtf : F → F) (g : CImg F) (dkx dky dkz : F) (otf : OtfImg F)
    (dkr_otf dkz_otf rcutoff wiener : F) : CImg F :=
  let w : F := wiener * wiener
  let kxscale : F := dkx / dkr_otf
  let kyscale : F := dky / dkr_otf
  let kzscale : F := dkz / dkz_otf
  let nx : ℤ := (g.width : ℤ) / 2
  let ny : ℤ := (g.height : ℤ)
  let nz : ℤ := (g.depth : ℤ)
  forLoop nz.toNat (fun k g1 =>
    let kz : F := ((foldFreq nz k : ℤ) : F)
    forLoop ny.toNat (fun i g2 =>
      let ky : F := ((foldFreq ny i : ℤ) : F)
      forLoop nx.toNat (fun j g3 =>
        wienerVoxel sqrtf otf dkx dky rcutoff w kxscale kyscale kzscale kz ky k i j g3) g2) g1) g

/-- The complex value that one pass of the loop body of `wienerfilter` stores
at voxel `(j, i, k)`, as a function of the pair `(a, b)` it finds there
(lines 81-98 read as an expression; used to state what the loops compute). -/
def wienerValue (sqrtf : F → F) (otf : OtfImg F) (dkx dky rcutoff w kxscale kyscale kzscale : F)
    (kz ky : F) (j : ℤ) (a b : F) : Cplx F :=
  let kx : F := (j : F)
  let kr : F := sqrtf (kx * kx * dkx * dkx + ky * ky * dky * dky)
  if kr ≤ rcutoff then
    let otf_val : Cplx F :=
      otfinterpolate sqrtf otf.cdata (kx * kxscale) (ky * kyscale) (kz * kzscale)
        ((otf.width : ℤ) / 2) (otf.height : ℤ)
    let amp2 : F := otf_val.re * otf_val.re + otf_val.im * otf_val.im
    Cplx.scale (Cplx.divs (Cplx.mul (Cplx.conj otf_val) ⟨a, b⟩) (amp2 + w)) (1 - kr / rcutoff)
  else
    ⟨0, 0⟩

/-- State `st` is state `g0` after the complex voxels selected by `S` have
each been replaced by `val` of their old content, nothing else changing. -/
def Processed (val : ℤ → ℤ → ℤ → F → F → Cplx F) (S : ℤ → ℤ → ℤ → Prop)
    (g0 st : CImg F) : Prop :=
  (st.width = g0.width ∧ st.height = g0.height ∧ st.depth = g0.depth) ∧
  (∀ j i k, S j i k →
    st.data (2 * j) i k = (val j i k (g0.data (2 * j) i k) (g0.data (2 * j + 1) i k)).re ∧
    st.data (2 * j + 1) i k = (val j i k (g0.data (2 * j) i k) (g0.data (2 * j + 1) i k)).im) ∧
  (∀ x y z, (∀ j, S j y z → x ≠ 2 * j ∧ x ≠ 2 * j + 1) → st.data x y z = g0.data x y z)

end Wiener

/-! ## `apodize` (lines 106-134) -/

section Apodize

variable {F : Type} [LinearOrderedField F]

/-- The function `apodize`; `sinf` and `pi` stand for `sin` and `M_PI`. -/
def apodize (sinf : F → F) (pi : F) (napodize : ℤ) (image : CImg F) : CImg F :=
  let nx0 : ℤ := (image.width : ℤ)
  let ny : ℤ := (image.height : ℤ)
  let nx : ℤ := if nx0 - ny = 2 then nx0 - 2 else nx0
  forLoop image.depth (fun z img0 =>
    let img1 : CImg F :=
      forLoop nx.toNat (fun k img =>
        let diff : F := (img.data k (ny - 1) z - img.data k 0 z) * (1 / 2)
        forLoop napodize.toNat (fun l im =>
          let fact : F := 1 - sinf ((((l : F) + 1 / 2) / (napodize : F)) * pi * (1 / 2))
          let im1 : CImg F := im.set k l z (im.data k l z + diff * fact)
          im1.set k (ny - 1 - l) z (im1.data k (ny - 1 - l) z - diff * fact)) img) img0
    forLoop ny.toNat (fun l img =>
      let diff : F := (img.data (nx - 1) l z - img.data 0 l z) * (1 / 2)
      forLoop napodize.toNat (fun k im =>
        let fact : F := 1 - sinf ((((k : F) + 1 / 2) / (napodize : F)) * pi * (1 / 2))
        let im1 : CImg F := im.set k l z (im.data k l z + diff * fact)
        im1.set (nx - 1 - k) l z (im1.data (nx - 1 - k) l z - diff * fact)) img) img1) image

/-- A sample position `(x, y, z)`. -/
abbrev Cell := ℤ × ℤ × ℤ

/-- The read `image(x, y, z)` at a position. -/
def CImg.get (g : CImg F) (c : Cell) : F := g.data c.1 c.2.1 c.2.2

/-- The write `image(x, y, z) = v` at a position. -/
def CImg.put (g : CImg F) (c : Cell) (v : F) : CImg F := g.set c.1 c.2.1 c.2.2 v

/-- The taper factor `fact` of lines 120 and 128 at loop index `l`. -/
def taperFact (sinf : F → F) (pi : F) (napodize : ℤ) (l : ℤ) : F :=
  1 - sinf ((((l : F) + 1 / 2) / (napodize : F)) * pi * (1 / 2))

/-- The shape shared by the two inner loops of `apodize` (lines 119-123 and
127-131): `n` passes, pass `b` adding `d * f b` at position `p b` and then
subtracting it at position `q b` (used to state what the loops compute). -/
def taperLine (f : ℤ → F) (d : F) (p q : ℤ → Cell) (n : ℕ) (im : CImg F) : CImg F :=
  forLoop n (fun b im0 =>
    (im0.put (p b) (im0.get (p b) + d * f b)).put (q b)
      ((im0.put (p b) (im0.get (p b) + d * f b)).get (q b) - d * f b)) im

/-- The shape shared by the two middle loops of `apodize` (lines 117-124 and
125-132): for each line `a`, half the difference of its two end samples
`Q0 a` and `P0 a` is tapered along the line. -/
def taperPass (f : ℤ → F) (P0 Q0 : ℤ → Cell) (P Q : ℤ → ℤ → Cell) (N n : ℕ)
    (img : CImg F) : CImg F :=
  forLoop N (fun a im =>
    taperLine f ((im.get (Q0 a) - im.get (P0 a)) * (1 / 2)) (P a) (Q a) n im) img

end Apodize

/-! ## `main`: frequency steps (lines 263-264 and 335-338) -/

section MainSteps

variable {F : Type} [LinearOrderedField F] [FloorRing F]

/-- Lines 263-264: the pair `(dkr_otf, dkz_otf)`. -/
def otfFreqSteps (nr_otf nz_otf : ℤ) (dr_psf dz_psf : F) : F × F :=
  (1 / ((((nr_otf - 1) * 2 : ℤ) : F) * dr_psf), 1 / ((nz_otf : F) * dz_psf))

/-- Lines 335-337: the triple `(dkx, dky, dkz)`. -/
def dataFreqSteps (dr dz : F) (deskewedXdim new_ny new_nz : ℤ) : F × F × F :=
  (1 / (dr * (deskewedXdim : F)), 1 / (dr * (new_ny : F)), 1 / (dz * (new_nz : F)))

/-- Line 338: `rdistcutoff = 2*NA/wave`. -/
def rdistcutoff (NA wave : F) : F := 2 * NA / wave

end MainSteps

/-! ## `main`: batch initialisation of the width and the deskew geometry
(lines 249-257 and 266-288) -/

section MainInit

variable {F : Type} [LinearOrderedField F] [FloorRing F]

/-- Conversion of a floating value to `int`: truncation towards zero. -/
def truncToInt (x : F) : ℤ := if 0 ≤ x then ⌊x⌋ else ⌈x⌉

/-- The operator `!` on a floating value: `true` exactly for zero. -/
def logicalNot (x : F) : Bool := decide (x = 0)

/-- Promotion of a `bool` to a floating value for a comparison. -/
def boolToFloat (b : Bool) : F := if b then 1 else 0

/-- The guard of line 251, `!fabs(deskewAngle) > 0.0`, which C++ reads as
`(!fabs(deskewAngle)) > 0.0`. -/
def widthGuard (deskewAngle : F) : Bool :=
  decide ((boolToFloat (logicalNot |deskewAngle|) : F) > 0)

/-- Lines 250-257: the pair `(new_nx, bCrop)` after the block, from the
image width `nx` and the crop flag before it. -/
def initWidth (findOptimalDimension : ℤ → ℤ) (deskewAngle : F) (nx : ℤ) (bCrop : Bool) :
    ℤ × Bool :=
  let new_nx : ℤ := nx
  if widthGuard deskewAngle then
    let new_nx : ℤ := findOptimalDimension nx
    if new_nx ≠ nx then (new_nx, true) else (new_nx, bCrop)
  else
    (new_nx, bCrop)

/-- Line 269: a negative deskew angle is increased by 180 degrees. -/
def normalizeAngle (deskewAngle : F) : F :=
  if deskewAngle < 0 then deskewAngle + 180 else deskewAngle

/-- Lines 267-275 inside the branch `fabs(deskewAngle) > 0.0`: the value of
`deskewedXdim` that line 277 passes to `findOptimalDimension`.  The
compound assignment of line 272 adds a `double` to the `int` and converts
the sum back to `int`. -/
def deskewedXdimArg (cosf : F → F) (pi : F) (deskewAngle : F) (outputWidth : ℕ)
    (new_nx new_nz : ℤ) (dz dr : F) : ℤ :=
  let deskewedXdim : ℤ := new_nx
  let angle : F := normalizeAngle deskewAngle
  if outputWidth = 0 then
    truncToInt ((deskewedXdim : F) +
      ((⌊(new_nz : F) * dz * |cosf (angle * pi / 180)| / dr⌋ : ℤ) : F) / 4)
  else
    (outputWidth : ℤ)

/-- The variables that lines 266-288 set; `deskewFactor` is assigned only
when deskewing and is `none` otherwise. -/
structure DeskewGeometry (F : Type) where
  deskewAngle : F
  deskewFactor : Option F
  deskewedXdim : ℤ
  dz : F

/-- Lines 267-281 of `main`; `cosf`, `sinf` and `pi` stand for `cos`, `sin`
and `M_PI`, and `dz`, `dr` for `imgParams.dz`, `imgParams.dr`. -/
def deskewSetup (cosf sinf : F → F) (pi : F) (findOptimalDimension : ℤ → ℤ)
    (deskewAngle : F) (outputWidth : ℕ) (new_nx new_nz : ℤ) (dz dr : F) : DeskewGeometry F :=
  if |deskewAngle| > 0 then
    let angle : F := normalizeAngle deskewAngle
    let deskewFactor : F := cosf (angle * pi / 180) * dz / dr
    let deskewedXdim : ℤ :=
      findOptimalDimension (deskewedXdimArg cosf pi deskewAngle outputWidth new_nx new_nz dz dr)
    ⟨angle, some deskewFactor, deskewedXdim, dz * sinf (angle * pi / 180)⟩
  else
    ⟨deskewAngle, none, new_nx, dz⟩

/-- Division of `n` by `p` as long as it is exact, at most `fuel` times. -/
def stripFactor (p : ℕ) : ℕ → ℕ → ℕ
  | 0, n => n
  | fuel + 1, n => if n % p = 0 ∧ n ≠ 0 then stripFactor p fuel (n / p) else n

/-- Whether `n` is a product of powers of 2, 3, 5 and 7. -/
def isSmooth7 (n : ℕ) : Bool :=
  stripFactor 7 n (stripFactor 5 n (stripFactor 3 n (stripFactor 2 n n))) = 1

/-- Modelled from the spec: `findOptimalDimension` is declared in
`linearDecon.h`, which is not among the sources.  A sample optimizer after
section 4.1: the smallest extent `≥ n` (searched up to `2n`) that factors
into the primes 2, 3, 5 and 7. -/
def sampleOptimalDimension (n : ℤ) : ℤ :=
  match (List.range (n.toNat + 1)).find? (fun d => isSmooth7 (n.toNat + d)) with
  | some d => n + (d : ℤ)
  | none => n

end MainInit

/-! ## `main`: per-file processing (lines 358-384) -/

section PerFile

variable {F : Type} [LinearOrderedField F]

/-- The operator `raw_image -= background`. -/
def CImg.subScalar (g : CImg F) (b : F) : CImg F :=
  { g with data := fun x y z => g.data x y z - b }

/-- The method `raw_image.max(v)`: every sample becomes the larger of
itself and `v`. -/
def CImg.maxScalar (g : CImg F) (v : F) : CImg F :=
  { g with data := fun x y z => max (g.data x y z) v }

/-- What the per-file step hands on: the volume passed to `RichardsonLucy`,
the volume and background passed to `RichardsonLucy_GPU`, or the volume
passed to the forward transform of the one-step Wiener path. -/
inductive Handoff (F : Type) where
  | richardsonLucy (raw_image : CImg F) : Handoff F
  | richardsonLucyGPU (raw_image : CImg F) (background : F) : Handoff F
  | forwardTransform (raw_image : CImg F) : Handoff F

/-- Lines 358-374: the branch taken and the volume handed on, from the
(already cropped) `raw_image`. -/
def perFileHandoff (RL_iters : ℤ) (bCPU : Bool) (raw_image : CImg F) (background : F) :
    Handoff F :=
  if RL_iters ≠ 0 then
    if bCPU then
      Handoff.richardsonLucy ((raw_image.subScalar background).maxScalar 0)
    else
      Handoff.richardsonLucyGPU raw_image background
  else
    Handoff.forwardTransform (raw_image.subScalar background)

/-- The volume inside a hand-off. -/
def Handoff.volume : Handoff F → CImg F
  | Handoff.richardsonLucy v => v
  | Handoff.richardsonLucyGPU v _ => v
  | Handoff.forwardTransform v => v

end PerFile

/-! ## Theorems -/

section Loops

variable {F : Type}

theorem CImg.set_data_same (g : CImg F) (x y z : ℤ) (v : F) :
    (g.set x y z v).data x y z = v := by
  simp [CImg.set]

theorem CImg.set_data_ne (g : CImg F) (x y z x' y' z' : ℤ) (v : F)
    (h : ¬ (x' = x ∧ y' = y ∧ z' = z)) :
    (g.set x y z v).data x' y' z' = g.data x' y' z' := by
  simp [CImg.set, h]

theorem forLoop_zero {σ : Type} (body : ℤ → σ → σ) (s : σ) : forLoop 0 body s = s := rfl

theorem forLoop_succ {σ : Type} (n : ℕ) (body : ℤ → σ → σ) (s : σ) :
    forLoop (n + 1) body s = body (n : ℤ) (forLoop n body s) := by
  simp [forLoop, List.range_succ, List.foldl_append]

/-- Loop invariant rule for `forLoop`. -/
theorem forLoop_invariant {σ : Type} (P : ℕ → σ → Prop) (n : ℕ) (body : ℤ → σ → σ) (s : σ)
    (h0 : P 0 s) (hstep : ∀ m, m < n → ∀ st, P m st → P (m + 1) (body (m : ℤ) st)) :
    P n (forLoop n body s) := by
  induction n with
  | zero => simpa [forLoop_zero] using h0
  | succ n ih =>
    rw [forLoop_succ]
    exact hstep n (Nat.lt_succ_self n) _
      (ih (fun m hm st hst => hstep m (Nat.lt_succ_of_lt hm) st hst))

theorem CImg.set_data (g : CImg F) (x y z : ℤ) (v : F) (x' y' z' : ℤ) :
    (g.set x y z v).data x' y' z' = if x' = x ∧ y' = y ∧ z' = z then v else g.data x' y' z' :=
  rfl

theorem forLoop_one {σ : Type} (body : ℤ → σ → σ) (s : σ) : forLoop 1 body s = body 0 s := rfl

theorem forLoop_two {σ : Type} (body : ℤ → σ → σ) (s : σ) :
    forLoop 2 body s = body 1 (body 0 s) := rfl

theorem CImg.get_put_same (g : CImg F) (c : Cell) (v : F) : (g.put c v).get c = v := by
  simp [CImg.get, CImg.put, CImg.set]

theorem CImg.get_put_ne (g : CImg F) (c c' : Cell) (v : F) (h : c' ≠ c) :
    (g.put c v).get c' = g.get c' := by
  have h' : ¬ (c'.1 = c.1 ∧ c'.2.1 = c.2.1 ∧ c'.2.2 = c.2.2) := by
    rintro ⟨h1, h2, h3⟩
    exact h (Prod.ext h1 (Prod.ext h2 h3))
  simp [CImg.get, CImg.put, CImg.set, h']

theorem cell_ne_x {c c' : Cell} (h : c.1 ≠ c'.1) : c ≠ c' := fun e => h (congrArg Prod.fst e)

theorem cell_ne_y {c c' : Cell} (h : c.2.1 ≠ c'.2.1) : c ≠ c' :=
  fun e => h (congrArg (fun d : Cell => d.2.1) e)

theorem cell_ne_z {c c' : Cell} (h : c.2.2 ≠ c'.2.2) : c ≠ c' :=
  fun e => h (congrArg (fun d : Cell => d.2.2) e)

/-- Invariant of the slice loop of `apodize`: a body that leaves slice `z0`
alone in every pass but pass `z0` gives, at two positions of slice `z0`,
what pass `z0` makes of the original samples. -/
theorem sliceLoop_at (body : ℤ → CImg F → CImg F) (depth : ℕ) (image : CImg F) (z0 : ℕ)
    (hz0 : z0 < depth) (cP cQ : Cell) (VP VQ : F)
    (hother : ∀ m : ℕ, m ≠ z0 → ∀ st : CImg F,
      (body (m : ℤ) st).get cP = st.get cP ∧ (body (m : ℤ) st).get cQ = st.get cQ)
    (hat : ∀ st : CImg F, st.get cP = image.get cP → st.get cQ = image.get cQ →
      (body (z0 : ℤ) st).get cP = VP ∧ (body (z0 : ℤ) st).get cQ = VQ) :
    (forLoop depth body image).get cP = VP ∧ (forLoop depth body image).get cQ = VQ := by
  have key := forLoop_invariant
    (fun m st => (z0 < m → st.get cP = VP ∧ st.get cQ = VQ) ∧
      (m ≤ z0 → st.get cP = image.get cP ∧ st.get cQ = image.get cQ))
    depth body image ⟨fun h => absurd h (by omega), fun _ => ⟨rfl, rfl⟩⟩ ?_
  · exact key.1 hz0
  · intro m _ st hst
    rcases lt_trichotomy m z0 with hlt | heq | hgt
    · refine ⟨fun h => absurd h (by omega), fun _ => ?_⟩
      obtain ⟨e1, e2⟩ := hst.2 hlt.le
      obtain ⟨g1, g2⟩ := hother m (by omega) st
      exact ⟨g1.trans e1, g2.trans e2⟩
    · subst heq
      refine ⟨fun _ => ?_, fun h => absurd h (by omega)⟩
      obtain ⟨e1, e2⟩ := hst.2 le_rfl
      exact hat st e1 e2
    · refine ⟨fun _ => ?_, fun h => absurd h (by omega)⟩
      obtain ⟨e1, e2⟩ := hst.1 hgt
      obtain ⟨g1, g2⟩ := hother m (by omega) st
      exact ⟨g1.trans e1, g2.trans e2⟩

end Loops

section ProcessedLemmas

variable {F : Type}

theorem Processed.refl (val : ℤ → ℤ → ℤ → F → F → Cplx F) (g : CImg F) :
    Processed val (fun _ _ _ => False) g g :=
  ⟨⟨rfl, rfl, rfl⟩, fun _ _ _ h => h.elim, fun _ _ _ _ => rfl⟩

theorem Processed.congr {val : ℤ → ℤ → ℤ → F → F → Cplx F} {S T : ℤ → ℤ → ℤ → Prop}
    {g0 st : CImg F} (h : Processed val S g0 st) (hST : ∀ j i k, T j i k ↔ S j i k) :
    Processed val T g0 st :=
  ⟨h.1, fun j i k hT => h.2.1 j i k ((hST j i k).1 hT),
    fun x y z hx => h.2.2 x y z (fun j hS => hx j ((hST j y z).2 hS))⟩

theorem Processed.trans {val : ℤ → ℤ → ℤ → F → F → Cplx F} {S T : ℤ → ℤ → ℤ → Prop}
    {g0 g1 g2 : CImg F} (hS : Processed val S g0 g1) (hT : Processed val T g1 g2)
    (hdisj : ∀ j i k, S j i k → T j i k → False) :
    Processed val (fun j i k => S j i k ∨ T j i k) g0 g2 := by
  obtain ⟨⟨hw1, hh1, hd1⟩, hv1, hf1⟩ := hS
  obtain ⟨⟨hw2, hh2, hd2⟩, hv2, hf2⟩ := hT
  refine ⟨⟨hw2.trans hw1, hh2.trans hh1, hd2.trans hd1⟩, ?_, ?_⟩
  · intro j i k hjk
    rcases hjk with hs | ht
    · have e0 : g2.data (2 * j) i k = g1.data (2 * j) i k := by
        apply hf2
        intro j' hj'
        have : j ≠ j' := fun e => hdisj j i k hs (e ▸ hj')
        constructor <;> omega
      have e1 : g2.data (2 * j + 1) i k = g1.data (2 * j + 1) i k := by
        apply hf2
        intro j' hj'
        have : j ≠ j' := fun e => hdisj j i k hs (e ▸ hj')
        constructor <;> omega
      rw [e0, e1]
      exact hv1 j i k hs
    · have e0 : g1.data (2 * j) i k = g0.data (2 * j) i k := by
        apply hf1
        intro j' hj'
        have : j ≠ j' := fun e => hdisj j' i k hj' (e ▸ ht)
        constructor <;> omega
      have e1 : g1.data (2 * j + 1) i k = g0.data (2 * j + 1) i k := by
        apply hf1
        intro j' hj'
        have : j ≠ j' := fun e => hdisj j' i k hj' (e ▸ ht)
        constructor <;> omega
      rw [← e0, ← e1]
      exact hv2 j i k ht
  · intro x y z hx
    rw [hf2 x y z (fun j hj => hx j (Or.inr hj)), hf1 x y z (fun j hj => hx j (Or.inl hj))]

/-- A loop whose `m`-th pass processes the voxels `T m`, the sets `T m`
being pairwise disjoint, processes their union. -/
theorem Processed.forLoop (val : ℤ → ℤ → ℤ → F → F → Cplx F) (n : ℕ)
    (body : ℤ → CImg F → CImg F) (T : ℕ → ℤ → ℤ → ℤ → Prop)
    (hbody : ∀ m, m < n → ∀ st, Processed val (T m) st (body (m : ℤ) st))
    (hdisj : ∀ m m' j i k, m ≠ m' → T m j i k → T m' j i k → False) (g0 : CImg F) :
    Processed val (fun j i k => ∃ m, m < n ∧ T m j i k) g0 (forLoop n body g0) := by
  refine forLoop_invariant
    (fun c st => Processed val (fun j i k => ∃ m, m < c ∧ T m j i k) g0 st) n body g0 ?_ ?_
  · exact (Processed.refl val g0).congr (fun j i k => ⟨fun ⟨m, hm, _⟩ => by omega, False.elim⟩)
  · intro c hc st hst
    have h2 := hst.trans (hbody c hc st)
      (fun j i k ⟨m, hm, hT⟩ hT' => hdisj m c j i k (by omega) hT hT')
    refine h2.congr (fun j i k => ⟨?_, ?_⟩)
    · rintro ⟨m, hm, hT⟩
      rcases Nat.lt_succ_iff_lt_or_eq.mp hm with h | h
      · exact Or.inl ⟨m, h, hT⟩
      · exact Or.inr (h ▸ hT)
    · rintro (⟨m, hm, hT⟩ | hT)
      · exact ⟨m, Nat.lt_succ_of_lt hm, hT⟩
      · exact ⟨c, Nat.lt_succ_self c, hT⟩

end ProcessedLemmas

section OtfLemmas

variable {F : Type} [LinearOrderedField F] [FloorRing F]

/-- When the radial index and the folded axial coordinate are both
non-negative, the four table indices of the bilinear branch lie inside the
`nrotf * nzotf` table. -/
theorem otfLookup_in_table (sqrtf : F → F) (kx ky kz : F) (nzotf nrotf : ℤ) (L : OtfLookup F)
    (h : otfLookup sqrtf kx ky kz nzotf nrotf = some L)
    (hs : 0 ≤ sqrtf (kx * kx + ky * ky))
    (hz : 0 ≤ (if kz < 0 then kz + (nzotf : F) else kz)) :
    (0 ≤ L.i00 ∧ L.i00 < nrotf * nzotf) ∧ (0 ≤ L.i01 ∧ L.i01 < nrotf * nzotf) ∧
    (0 ≤ L.i10 ∧ L.i10 < nrotf * nzotf) ∧ (0 ≤ L.i11 ∧ L.i11 < nrotf * nzotf) := by
  unfold otfLookup at h
  simp only at h
  generalize (if kz < 0 then kz + (nzotf : F) else kz) = kzi at h hz
  generalize sqrtf (kx * kx + ky * ky) = kri at h hs
  by_cases hg : kri < ((nrotf - 1 : ℤ) : F) ∧ kzi < (nzotf : F)
  · rw [if_pos hg] at h
    obtain ⟨h1, h2⟩ := hg
    have ir0 : 0 ≤ ⌊kri⌋ := Int.floor_nonneg.mpr hs
    have ir1 : ⌊kri⌋ < nrotf - 1 := Int.floor_lt.mpr h1
    have iz0 : 0 ≤ ⌊kzi⌋ := Int.floor_nonneg.mpr hz
    have iz1 : ⌊kzi⌋ < nzotf := Int.floor_lt.mpr h2
    generalize ⌊kri⌋ = ir at *
    generalize ⌊kzi⌋ = iz at *
    have hA : 0 ≤ ir * nzotf := mul_nonneg ir0 (by omega)
    have hB : (ir + 1) * nzotf ≤ (nrotf - 1) * nzotf :=
      mul_le_mul_of_nonneg_right (by omega) (by omega)
    have hC : (ir + 1) * nzotf = ir * nzotf + nzotf := by ring
    have hD : (nrotf - 1) * nzotf = nrotf * nzotf - nzotf := by ring
    by_cases hw : iz = nzotf - 1
    · rw [if_pos hw] at h
      have hL := (Option.some.inj h).symm
      subst hL
      refine ⟨⟨?_, ?_⟩, ⟨?_, ?_⟩, ⟨?_, ?_⟩, ⟨?_, ?_⟩⟩ <;> simp only <;> omega
    · rw [if_neg hw] at h
      have hL := (Option.some.inj h).symm
      subst hL
      refine ⟨⟨?_, ?_⟩, ⟨?_, ?_⟩, ⟨?_, ?_⟩, ⟨?_, ?_⟩⟩ <;> simp only <;> omega
  · rw [if_neg hg] at h
    exact absurd h (by simp)

/-- Bilinear interpolation of four entries that are all `1+0i` is `1+0i`. -/
theorem otfinterpolate_of_ones (sqrtf : F → F) (otf : ℤ → Cplx F) (kx ky kz : F)
    (nzotf nrotf : ℤ) (L : OtfLookup F)
    (h : otfLookup sqrtf kx ky kz nzotf nrotf = some L)
    (h00 : otf L.i00 = ⟨1, 0⟩) (h01 : otf L.i01 = ⟨1, 0⟩)
    (h10 : otf L.i10 = ⟨1, 0⟩) (h11 : otf L.i11 = ⟨1, 0⟩) :
    otfinterpolate sqrtf otf kx ky kz nzotf nrotf = ⟨1, 0⟩ := by
  unfold otfinterpolate
  rw [h]
  simp only [h00, h01, h10, h11, Cplx.add, Cplx.smul, Cplx.scale]
  congr 1 <;> ring

end OtfLemmas

section WienerLemmas

variable {F : Type} [LinearOrderedField F] [FloorRing F]

/-- The loop body stores `wienerValue` of the pair it finds. -/
theorem wienerVoxel_eq (sqrtf : F → F) (otf : OtfImg F)
    (dkx dky rcutoff w kxscale kyscale kzscale kz ky : F) (k i j : ℤ) (g : CImg F) :
    wienerVoxel sqrtf otf dkx dky rcutoff w kxscale kyscale kzscale kz ky k i j g =
      (g.set (2 * j) i k (wienerValue sqrtf otf dkx dky rcutoff w kxscale kyscale kzscale kz ky j
          (g.data (2 * j) i k) (g.data (2 * j + 1) i k)).re).set (2 * j + 1) i k
        (wienerValue sqrtf otf dkx dky rcutoff w kxscale kyscale kzscale kz ky j
          (g.data (2 * j) i k) (g.data (2 * j + 1) i k)).im := by
  unfold wienerVoxel wienerValue
  by_cases h : sqrtf ((j : F) * (j : F) * dkx * dkx + ky * ky * dky * dky) ≤ rcutoff
  · simp only [h, if_true]
  · simp only [h, if_false]

/-- One pass of the loop body processes exactly voxel `(j, i, k)`. -/
theorem wienerVoxel_processed (sqrtf : F → F) (otf : OtfImg F)
    (dkx dky rcutoff w kxscale kyscale kzscale : F) (ny nz : ℤ) (k i j : ℤ) (g : CImg F) :
    Processed
      (fun j' i' k' a b => wienerValue sqrtf otf dkx dky rcutoff w kxscale kyscale kzscale
        ((foldFreq nz k' : ℤ) : F) ((foldFreq ny i' : ℤ) : F) j' a b)
      (fun j' i' k' => j' = j ∧ i' = i ∧ k' = k) g
      (wienerVoxel sqrtf otf dkx dky rcutoff w kxscale kyscale kzscale
        ((foldFreq nz k : ℤ) : F) ((foldFreq ny i : ℤ) : F) k i j g) := by
  rw [wienerVoxel_eq]
  refine ⟨⟨rfl, rfl, rfl⟩, ?_, ?_⟩
  · rintro j' i' k' ⟨rfl, rfl, rfl⟩
    constructor
    · rw [CImg.set_data_ne _ _ _ _ _ _ _ _ (by omega), CImg.set_data_same]
    · rw [CImg.set_data_same]
  · intro x y z hx
    by_cases hyz : y = i ∧ z = k
    · obtain ⟨rfl, rfl⟩ := hyz
      have := hx j ⟨rfl, rfl, rfl⟩
      rw [CImg.set_data_ne _ _ _ _ _ _ _ _ (by tauto), CImg.set_data_ne _ _ _ _ _ _ _ _ (by tauto)]
    · rw [CImg.set_data_ne _ _ _ _ _ _ _ _ (by tauto), CImg.set_data_ne _ _ _ _ _ _ _ _ (by tauto)]

/-- What the three loops of `wienerfilter` compute: every complex voxel of
the half-spectrum is replaced by `wienerValue` of its old content, and no
other sample changes. -/
theorem wienerfilter_processed (sqrtf : F → F) (g : CImg F) (dkx dky dkz : F) (otf : OtfImg F)
    (dkr_otf dkz_otf rcutoff wiener : F) :
    Processed
      (fun j' i' k' a b => wienerValue sqrtf otf dkx dky rcutoff (wiener * wiener)
        (dkx / dkr_otf) (dky / dkr_otf) (dkz / dkz_otf)
        ((foldFreq (g.depth : ℤ) k' : ℤ) : F) ((foldFreq (g.height : ℤ) i' : ℤ) : F) j' a b)
      (fun j i k => (0 ≤ j ∧ j < (g.width : ℤ) / 2) ∧ (0 ≤ i ∧ i < (g.height : ℤ)) ∧
        (0 ≤ k ∧ k < (g.depth : ℤ)))
      g (wienerfilter sqrtf g dkx dky dkz otf dkr_otf dkz_otf rcutoff wiener) := by
  unfold wienerfilter
  have hloop := Processed.forLoop
    (fun j' i' k' a b => wienerValue sqrtf otf dkx dky rcutoff (wiener * wiener)
        (dkx / dkr_otf) (dky / dkr_otf) (dkz / dkz_otf)
        ((foldFreq (g.depth : ℤ) k' : ℤ) : F) ((foldFreq (g.height : ℤ) i' : ℤ) : F) j' a b)
    ((g.depth : ℤ).toNat)
    (fun k g1 => forLoop ((g.height : ℤ).toNat) (fun i g2 =>
      forLoop (((g.width : ℤ) / 2).toNat) (fun j g3 =>
        wienerVoxel sqrtf otf dkx dky rcutoff (wiener * wiener)
          (dkx / dkr_otf) (dky / dkr_otf) (dkz / dkz_otf)
          ((foldFreq (g.depth : ℤ) k : ℤ) : F) ((foldFreq (g.height : ℤ) i : ℤ) : F) k i j g3) g2) g1)
    (fun kk j i k => (∃ ii, ii < (g.height : ℤ).toNat ∧
      ∃ jj, jj < ((g.width : ℤ) / 2).toNat ∧ j = (jj : ℤ) ∧ i = (ii : ℤ) ∧ k = (kk : ℤ)))
    ?_ ?_ g
  · refine hloop.congr (fun j i k => ⟨?_, ?_⟩)
    · rintro ⟨⟨hj0, hj1⟩, ⟨hi0, hi1⟩, ⟨hk0, hk1⟩⟩
      exact ⟨k.toNat, by omega, i.toNat, by omega, j.toNat, by omega, by omega, by omega, by omega⟩
    · rintro ⟨kk, hkk, ii, hii, jj, hjj, rfl, rfl, rfl⟩
      omega
  · intro kk _ st
    have hi := Processed.forLoop
      (fun j' i' k' a b => wienerValue sqrtf otf dkx dky rcutoff (wiener * wiener)
          (dkx / dkr_otf) (dky / dkr_otf) (dkz / dkz_otf)
          ((foldFreq (g.depth : ℤ) k' : ℤ) : F) ((foldFreq (g.height : ℤ) i' : ℤ) : F) j' a b)
      ((g.height : ℤ).toNat)
      (fun i g2 => forLoop (((g.width : ℤ) / 2).toNat) (fun j g3 =>
          wienerVoxel sqrtf otf dkx dky rcutoff (wiener * wiener)
            (dkx / dkr_otf) (dky / dkr_otf) (dkz / dkz_otf)
            ((foldFreq (g.depth : ℤ) (kk : ℤ) : ℤ) : F) ((foldFreq (g.height : ℤ) i : ℤ) : F)
            (kk : ℤ) i j g3) g2)
      (fun ii j i k => (∃ jj, jj < ((g.width : ℤ) / 2).toNat ∧
        j = (jj : ℤ) ∧ i = (ii : ℤ) ∧ k = (kk : ℤ)))
      ?_ ?_ st
    · exact hi
    · intro ii _ st2
      have hj := Processed.forLoop
        (fun j' i' k' a b => wienerValue sqrtf otf dkx dky rcutoff (wiener * wiener)
            (dkx / dkr_otf) (dky / dkr_otf) (dkz / dkz_otf)
            ((foldFreq (g.depth : ℤ) k' : ℤ) : F) ((foldFreq (g.height : ℤ) i' : ℤ) : F) j' a b)
        (((g.width : ℤ) / 2).toNat)
        (fun j g3 =>
            wienerVoxel sqrtf otf dkx dky rcutoff (wiener * wiener)
              (dkx / dkr_otf) (dky / dkr_otf) (dkz / dkz_otf)
              ((foldFreq (g.depth : ℤ) (kk : ℤ) : ℤ) : F)
              ((foldFreq (g.height : ℤ) (ii : ℤ) : ℤ) : F) (kk : ℤ) (ii : ℤ) j g3)
        (fun jj j i k => j = (jj : ℤ) ∧ i = (ii : ℤ) ∧ k = (kk : ℤ))
        ?_ ?_ st2
      · exact hj
      · intro jj _ st3
        exact wienerVoxel_processed sqrtf otf dkx dky rcutoff (wiener * wiener)
          (dkx / dkr_otf) (dky / dkr_otf) (dkz / dkz_otf) (g.height : ℤ) (g.depth : ℤ)
          (kk : ℤ) (ii : ℤ) (jj : ℤ) st3
      · rintro m m' j i k hne ⟨h1, _, _⟩ ⟨h2, _, _⟩
        omega
    · rintro m m' j i k hne ⟨_, _, _, _, h1, _⟩ ⟨_, _, _, _, h2, _⟩
      omega
  · rintro m m' j i k hne ⟨_, _, _, _, _, _, h1⟩ ⟨_, _, _, _, _, _, h2⟩
    omega

end WienerLemmas

section OtfTheorems

variable {F : Type} [LinearOrderedField F] [FloorRing F]

/-- C2: whenever the radial index `sqrt(kx²+ky²)` is at least `nrotf-1`, or
the folded axial coordinate is at least `nzotf`, `otfinterpolate` returns
`0+0i`, whatever the table holds. -/
theorem otfinterpolate_zero_fill (sqrtf : F → F) (otf : ℤ → Cplx F) (kx ky kz : F)
    (nzotf nrotf : ℤ)
    (h : ((nrotf : F) - 1 ≤ sqrtf (kx ^ 2 + ky ^ 2)) ∨
      ((nzotf : F) ≤ (if kz < 0 then kz + (nzotf : F) else kz))) :
    otfinterpolate sqrtf otf kx ky kz nzotf nrotf = Cplx.zero := by
  have hg : ¬ (sqrtf (kx * kx + ky * ky) < ((nrotf - 1 : ℤ) : F) ∧
      (if kz < 0 then kz + (nzotf : F) else kz) < (nzotf : F)) := by
    rintro ⟨h1, h2⟩
    rcases h with h | h
    · rw [show kx ^ 2 + ky ^ 2 = kx * kx + ky * ky by ring] at h
      push_cast at h1
      exact absurd h1 (not_lt.mpr h)
    · exact absurd h2 (not_lt.mpr h)
  unfold otfinterpolate otfLookup
  simp only [hg, if_false]

/-- Witness for C2: `(kx, ky) = (3, 4)`, radial index 5, against a table
of 3 radial samples. -/
theorem otfinterpolate_zero_fill_witness :
    otfinterpolate Real.sqrt (fun _ => ⟨1, 0⟩) 3 4 0 4 3 = Cplx.zero :=
  otfinterpolate_zero_fill Real.sqrt (fun _ => ⟨1, 0⟩) 3 4 0 4 3
    (Or.inl (by
      rw [Real.le_sqrt' (by norm_num)]
      norm_num))

/-- C5 (failing input): with a 2-by-2 table, `kx = ky = 0` and `kz = -3`, the
folded axial coordinate is `-1`, the guard of line 24 passes, and the
bilinear branch reads `otf[-1]`, before the start of the table; the value
returned is whatever that location holds, not `0+0i`. -/
theorem otfLookup_reads_before_table :
    (∃ L : OtfLookup ℝ, otfLookup Real.sqrt 0 0 (-3) 2 2 = some L ∧
      L.i00 = -1 ∧ ¬ (0 ≤ L.i00 ∧ L.i00 < 2 * 2)) ∧
    (∀ otf : ℤ → Cplx ℝ,
      (otfinterpolate Real.sqrt otf 0 0 (-3) 2 2).re = (otf (-1)).re ∧
      (otfinterpolate Real.sqrt otf 0 0 (-3) 2 2).im = (otf (-1)).im) := by
  have hL : otfLookup Real.sqrt 0 0 (-3) 2 2 = some ⟨0, 0, -1, 0, 1, 2⟩ := by
    unfold otfLookup
    norm_num
  refine ⟨⟨⟨0, 0, -1, 0, 1, 2⟩, hL, rfl, by decide⟩, ?_⟩
  intro otf
  unfold otfinterpolate
  rw [hL]
  simp [Cplx.add, Cplx.smul, Cplx.scale]

end OtfTheorems

section ScenarioLemmas

theorem otfLookup_some_of_guard {F : Type} [LinearOrderedField F] [FloorRing F]
    (sqrtf : F → F) (kx ky kz : F) (nzotf nrotf : ℤ)
    (h1 : sqrtf (kx * kx + ky * ky) < ((nrotf - 1 : ℤ) : F))
    (h2 : (if kz < 0 then kz + (nzotf : F) else kz) < (nzotf : F)) :
    ∃ L, otfLookup sqrtf kx ky kz nzotf nrotf = some L := by
  unfold otfLookup
  simp only [h1, h2, and_self, if_true]
  split_ifs <;> exact ⟨_, rfl⟩

/-- With the default pixel sizes and `rdistcutoff = 2*1.2/0.525`, every
voxel inside the cutoff falls inside a table of ones with at least two
radial samples, and interpolates to `1+0i`. -/
theorem otfinterpolate_unit_in_cutoff (otf : OtfImg ℝ)
    (hnr : 2 ≤ otf.height) (hnzo : 1 ≤ otf.width / 2)
    (hones : ∀ n : ℤ, 0 ≤ n → n < (otf.height : ℤ) * ((otf.width : ℤ) / 2) →
      otf.cdata n = ⟨1, 0⟩)
    (dkx dky : ℝ) (nz : ℤ) (j kyI kzI : ℤ) (hkz : -nz < 2 * kzI ∧ 2 * kzI ≤ nz)
    (hkr : Real.sqrt ((j : ℝ) * (j : ℝ) * dkx * dkx + (kyI : ℝ) * (kyI : ℝ) * dky * dky) ≤
      2 * (12 / 10) / (525 / 1000)) :
    otfinterpolate Real.sqrt otf.cdata
      ((j : ℝ) * (dkx / (1 / (((((otf.height : ℤ) - 1) * 2 : ℤ) : ℝ) * (104 / 1000)))))
      ((kyI : ℝ) * (dky / (1 / (((((otf.height : ℤ) - 1) * 2 : ℤ) : ℝ) * (104 / 1000)))))
      ((kzI : ℝ) * (1 / (25 / 100 * (nz : ℝ)) / (1 / ((((otf.width : ℤ) / 2 : ℤ) : ℝ) * (1 / 10)))))
      ((otf.width : ℤ) / 2) (otf.height : ℤ) = ⟨1, 0⟩ := by
  have hnr' : (2 : ℤ) ≤ (otf.height : ℤ) := by exact_mod_cast hnr
  have hnzo' : (1 : ℤ) ≤ (otf.width : ℤ) / 2 := by exact_mod_cast hnzo
  generalize (otf.height : ℤ) = nr at *
  generalize (otf.width : ℤ) / 2 = nzo at *
  have hnrR : (2 : ℝ) ≤ (nr : ℝ) := by exact_mod_cast hnr'
  have hnzoR : (1 : ℝ) ≤ (nzo : ℝ) := by exact_mod_cast hnzo'
  have hnzpos : (0 : ℝ) < (nz : ℝ) := by
    have : 0 < nz := by omega
    exact_mod_cast this
  set c : ℝ := (((nr - 1) * 2 : ℤ) : ℝ) * (104 / 1000) with hc
  have hcval : c = ((nr : ℝ) - 1) * 2 * (104 / 1000) := by
    rw [hc]; push_cast; ring
  have hcpos : 0 < c := by rw [hcval]; nlinarith
  set A : ℝ := (j : ℝ) * (j : ℝ) * dkx * dkx + (kyI : ℝ) * (kyI : ℝ) * dky * dky with hA
  -- radial index
  have hkri : Real.sqrt (((j : ℝ) * (dkx / (1 / c))) * ((j : ℝ) * (dkx / (1 / c))) +
      ((kyI : ℝ) * (dky / (1 / c))) * ((kyI : ℝ) * (dky / (1 / c)))) = c * Real.sqrt A := by
    have e : ((j : ℝ) * (dkx / (1 / c))) * ((j : ℝ) * (dkx / (1 / c))) +
      ((kyI : ℝ) * (dky / (1 / c))) * ((kyI : ℝ) * (dky / (1 / c))) = c ^ 2 * A := by
      rw [hA]; field_simp; ring
    rw [e, Real.sqrt_mul (sq_nonneg c), Real.sqrt_sq hcpos.le]
  have hg1 : c * Real.sqrt A < (((nr - 1 : ℤ)) : ℝ) := by
    have h1 : c * Real.sqrt A ≤ c * (2 * (12 / 10) / (525 / 1000)) :=
      mul_le_mul_of_nonneg_left hkr hcpos.le
    push_cast
    rw [hcval] at h1
    nlinarith
  -- axial index
  set t : ℝ := (kzI : ℝ) * (1 / (25 / 100 * (nz : ℝ)) / (1 / ((nzo : ℝ) * (1 / 10)))) with ht
  have htval : t = (kzI : ℝ) / (nz : ℝ) * ((4 / 10) * (nzo : ℝ)) := by
    rw [ht]; field_simp; ring
  have hk1 : -(1 / 2 : ℝ) < (kzI : ℝ) / (nz : ℝ) := by
    rw [lt_div_iff₀ hnzpos]
    have : (-(nz : ℝ)) < 2 * (kzI : ℝ) := by exact_mod_cast hkz.1
    linarith
  have hk2 : (kzI : ℝ) / (nz : ℝ) ≤ 1 / 2 := by
    rw [div_le_iff₀ hnzpos]
    have : 2 * (kzI : ℝ) ≤ (nz : ℝ) := by exact_mod_cast hkz.2
    linarith
  have hg2 : (if t < 0 then t + (nzo : ℝ) else t) < (nzo : ℝ) := by
    split_ifs with h
    · linarith
    · rw [htval]; nlinarith
  have hz : 0 ≤ (if t < 0 then t + (nzo : ℝ) else t) := by
    split_ifs with h
    · rw [htval]; nlinarith
    · exact not_lt.mp h
  obtain ⟨L, hL⟩ := otfLookup_some_of_guard Real.sqrt
    ((j : ℝ) * (dkx / (1 / c))) ((kyI : ℝ) * (dky / (1 / c))) t nzo nr
    (by rw [hkri]; exact hg1) hg2
  have hin := otfLookup_in_table Real.sqrt _ _ _ _ _ L hL (Real.sqrt_nonneg _) hz
  exact otfinterpolate_of_ones Real.sqrt otf.cdata _ _ _ _ _ L hL
    (hones _ hin.1.1 hin.1.2) (hones _ hin.2.1.1 hin.2.1.2)
    (hones _ hin.2.2.1.1 hin.2.2.1.2) (hones _ hin.2.2.2.1 hin.2.2.2.2)

end ScenarioLemmas

section WienerTheorems

variable {F : Type} [LinearOrderedField F] [FloorRing F]

/-- C1: after `wienerfilter`, every complex voxel `(j, i, k)` of the
half-spectrum whose lateral radius `sqrt((kx*dkx)² + (ky*dky)²)`, with
`kx = j` and `ky = i` folded to `i - ny` when `i > ny/2`, is strictly
greater than `rcutoff` has real and imaginary part exactly 0. -/
theorem wienerfilter_zero_beyond_cutoff (sqrtf : F → F) (g : CImg F) (dkx dky dkz : F)
    (otf : OtfImg F) (dkr_otf dkz_otf rcutoff wiener : F) (j i k : ℤ)
    (hj : 0 ≤ j ∧ j < (g.width : ℤ) / 2) (hi : 0 ≤ i ∧ i < (g.height : ℤ))
    (hk : 0 ≤ k ∧ k < (g.depth : ℤ))
    (hkr : rcutoff < sqrtf (((j : F) * dkx) ^ 2 +
      (((if i > (g.height : ℤ) / 2 then i - (g.height : ℤ) else i : ℤ) : F) * dky) ^ 2)) :
    (wienerfilter sqrtf g dkx dky dkz otf dkr_otf dkz_otf rcutoff wiener).data (2 * j) i k = 0 ∧
    (wienerfilter sqrtf g dkx dky dkz otf dkr_otf dkz_otf rcutoff wiener).data (2 * j + 1) i k
      = 0 := by
  have hP := (wienerfilter_processed sqrtf g dkx dky dkz otf dkr_otf dkz_otf rcutoff wiener).2.1
    j i k ⟨hj, hi, hk⟩
  have hcut : ¬ (sqrtf ((j : F) * (j : F) * dkx * dkx +
      ((foldFreq (g.height : ℤ) i : ℤ) : F) * ((foldFreq (g.height : ℤ) i : ℤ) : F) * dky * dky)
        ≤ rcutoff) := by
    have e : ((j : F) * dkx) ^ 2 +
        (((if i > (g.height : ℤ) / 2 then i - (g.height : ℤ) else i : ℤ) : F) * dky) ^ 2 =
        (j : F) * (j : F) * dkx * dkx +
        ((foldFreq (g.height : ℤ) i : ℤ) : F) * ((foldFreq (g.height : ℤ) i : ℤ) : F) * dky * dky := by
      unfold foldFreq
      ring
    rw [e] at hkr
    exact not_le.mpr hkr
  simp only [wienerValue, hcut, if_false] at hP
  exact hP

/-- Witness for C1: a 2-by-1-by-1 half-spectrum, unit frequency steps and
`rcutoff = 1/2`; voxel `j = 1` has radius 1. -/
theorem wienerfilter_zero_beyond_cutoff_witness :
    (wienerfilter Real.sqrt (⟨4, 1, 1, fun _ _ _ => 7⟩ : CImg ℝ) 1 1 1
        ⟨2, 2, fun _ => ⟨1, 0⟩⟩ 1 1 (1 / 2) (1 / 100)).data (2 * 1) 0 0 = 0 ∧
    (wienerfilter Real.sqrt (⟨4, 1, 1, fun _ _ _ => 7⟩ : CImg ℝ) 1 1 1
        ⟨2, 2, fun _ => ⟨1, 0⟩⟩ 1 1 (1 / 2) (1 / 100)).data (2 * 1 + 1) 0 0 = 0 :=
  wienerfilter_zero_beyond_cutoff Real.sqrt (⟨4, 1, 1, fun _ _ _ => 7⟩ : CImg ℝ) 1 1 1
    ⟨2, 2, fun _ => ⟨1, 0⟩⟩ 1 1 (1 / 2) (1 / 100) 1 0 0 (by norm_num) (by norm_num)
    (by norm_num) (by norm_num)

/-- Bounds of the folded frequency index `( n > ext/2 ? n-ext : n )`. -/
theorem foldFreq_bounds (ext n : ℤ) (h : 0 ≤ n ∧ n < ext) :
    -ext < 2 * foldFreq ext n ∧ 2 * foldFreq ext n ≤ ext := by
  unfold foldFreq
  split_ifs <;> omega

/-- The unit-table scenario stated through the frequency steps as `main`
computes them (`dataFreqSteps`, `otfFreqSteps`, `rdistcutoff`) and the fold
`foldFreq`. -/
theorem wienerfilter_unit_otf_steps (g : CImg ℝ) (otf : OtfImg ℝ)
    (hX : 2 < g.width)
    (hnr : 2 ≤ otf.height) (hnzo : 1 ≤ otf.width / 2)
    (hones : ∀ n : ℤ, 0 ≤ n → n < (otf.height : ℤ) * ((otf.width : ℤ) / 2) →
      otf.cdata n = ⟨1, 0⟩)
    (j i k : ℤ) (hj : 0 ≤ j ∧ j < (g.width : ℤ) / 2) (hi : 0 ≤ i ∧ i < (g.height : ℤ))
    (hk : 0 ≤ k ∧ k < (g.depth : ℤ)) :
    let dk : ℝ × ℝ × ℝ :=
      dataFreqSteps (104 / 1000) (25 / 100) ((g.width : ℤ) - 2) (g.height : ℤ) (g.depth : ℤ)
    let dko : ℝ × ℝ := otfFreqSteps (otf.height : ℤ) ((otf.width : ℤ) / 2) (104 / 1000) (1 / 10)
    let rc : ℝ := rdistcutoff (12 / 10) (525 / 1000)
    let out : CImg ℝ := wienerfilter Real.sqrt g dk.1 dk.2.1 dk.2.2 otf dko.1 dko.2 rc (1 / 100)
    let ky : ℝ := ((foldFreq (g.height : ℤ) i : ℤ) : ℝ)
    let kz : ℝ := ((foldFreq (g.depth : ℤ) k : ℤ) : ℝ)
    let kr : ℝ := Real.sqrt (((j : ℝ) * dk.1) ^ 2 + (ky * dk.2.1) ^ 2)
    (kr ≤ rc →
      otfinterpolate Real.sqrt otf.cdata ((j : ℝ) * (dk.1 / dko.1)) (ky * (dk.2.1 / dko.1))
        (kz * (dk.2.2 / dko.2)) ((otf.width : ℤ) / 2) (otf.height : ℤ) = ⟨1, 0⟩ ∧
      out.data (2 * j) i k = g.data (2 * j) i k * ((1 / (1 + 1 / 10000)) * (1 - kr / rc)) ∧
      out.data (2 * j + 1) i k =
        g.data (2 * j + 1) i k * ((1 / (1 + 1 / 10000)) * (1 - kr / rc))) ∧
    (rc < kr → out.data (2 * j) i k = 0 ∧ out.data (2 * j + 1) i k = 0) := by
  intro dk dko rc out ky kz kr
  have _hX : 2 < g.width := hX
  have hP := (wienerfilter_processed Real.sqrt g dk.1 dk.2.1 dk.2.2 otf dko.1 dko.2 rc
    (1 / 100)).2.1 j i k ⟨hj, hi, hk⟩
  have hkr : Real.sqrt ((j : ℝ) * (j : ℝ) * dk.1 * dk.1 + ky * ky * dk.2.1 * dk.2.1) = kr := by
    show _ = Real.sqrt _
    congr 1
    ring
  constructor
  · intro hle
    have hotf : otfinterpolate Real.sqrt otf.cdata ((j : ℝ) * (dk.1 / dko.1))
        (ky * (dk.2.1 / dko.1)) (kz * (dk.2.2 / dko.2)) ((otf.width : ℤ) / 2)
        (otf.height : ℤ) = ⟨1, 0⟩ :=
      otfinterpolate_unit_in_cutoff otf hnr hnzo hones dk.1 dk.2.1 (g.depth : ℤ) j
        (foldFreq (g.height : ℤ) i) (foldFreq (g.depth : ℤ) k)
        (foldFreq_bounds _ _ hk) (by rw [hkr]; exact hle)
    refine ⟨hotf, ?_⟩
    have hle' : Real.sqrt ((j : ℝ) * (j : ℝ) * dk.1 * dk.1 + ky * ky * dk.2.1 * dk.2.1) ≤ rc := by
      rw [hkr]; exact hle
    simp only [wienerValue] at hP
    rw [if_pos hle', hotf, hkr] at hP
    simp only [Cplx.scale, Cplx.divs, Cplx.mul, Cplx.conj] at hP
    obtain ⟨h1, h2⟩ := hP
    constructor
    · rw [h1]; norm_num; ring
    · rw [h2]; norm_num; ring
  · intro hlt
    have hgt : ¬ (Real.sqrt ((j : ℝ) * (j : ℝ) * dk.1 * dk.1 + ky * ky * dk.2.1 * dk.2.1) ≤ rc) := by
      rw [hkr]; exact not_le.mpr hlt
    simp only [wienerValue] at hP
    rw [if_neg hgt] at hP
    exact hP

/-- With a single radial sample the guard of line 24 reads `krindex < 0`,
which a square root never satisfies: `otfinterpolate` zero-fills. -/
theorem otfinterpolate_single_row (otf : ℤ → Cplx ℝ) (kx ky kz : ℝ) (nzotf : ℤ) :
    otfinterpolate Real.sqrt otf kx ky kz nzotf 1 = Cplx.zero := by
  have hg : ¬ (Real.sqrt (kx * kx + ky * ky) < (((1 : ℤ) - 1 : ℤ) : ℝ) ∧
      (if kz < 0 then kz + (nzotf : ℝ) else kz) < (nzotf : ℝ)) := by
    rintro ⟨h1, _⟩
    have h0 := Real.sqrt_nonneg (kx * kx + ky * ky)
    norm_num at h1
    linarith
  unfold otfinterpolate otfLookup
  simp only [hg, if_false]

/-- With a one-row table every voxel that `wienerfilter` rewrites becomes
zero, inside the cutoff as well as outside. -/
theorem wienerValue_single_row (otf : OtfImg ℝ) (h : (otf.height : ℤ) = 1)
    (dkx dky rcutoff w kxscale kyscale kzscale kz ky : ℝ) (j : ℤ) (a b : ℝ) :
    (wienerValue Real.sqrt otf dkx dky rcutoff w kxscale kyscale kzscale kz ky j a b).re = 0 ∧
    (wienerValue Real.sqrt otf dkx dky rcutoff w kxscale kyscale kzscale kz ky j a b).im = 0 := by
  unfold wienerValue
  rw [h]
  simp only [otfinterpolate_single_row]
  split_ifs <;> simp [Cplx.scale, Cplx.divs, Cplx.mul, Cplx.conj, Cplx.zero]

/-- C3 (counterexample): the half-spectrum of a (64,256,256) volume whose
voxel `(0, 0, 0)` holds `7+8i`, and a one-row OTF table of ones (3 axial
samples).  Voxel `(0, 0, 0)` has `kr = 0`, inside the cutoff, yet
`wienerfilter` stores `0+0i` there, not `7/(1+0.0001)`: with one radial
sample every lookup is zero-filled. -/
theorem wienerfilter_unit_otf_one_row :
    let g : CImg ℝ := ⟨258, 256, 64, fun x _ _ => if x = 0 then 7 else 8⟩
    let otf : OtfImg ℝ := ⟨6, 1, fun _ => ⟨1, 0⟩⟩
    let out : CImg ℝ := wienerfilter Real.sqrt g
      (dataFreqSteps (104 / 1000 : ℝ) (25 / 100) 256 256 64).1
      (dataFreqSteps (104 / 1000 : ℝ) (25 / 100) 256 256 64).2.1
      (dataFreqSteps (104 / 1000 : ℝ) (25 / 100) 256 256 64).2.2 otf
      (otfFreqSteps 1 3 (104 / 1000 : ℝ) (1 / 10)).1
      (otfFreqSteps 1 3 (104 / 1000 : ℝ) (1 / 10)).2
      (rdistcutoff (12 / 10) (525 / 1000)) (1 / 100)
    let rc : ℝ := 2 * (12 / 10) / (525 / 1000)
    let kr : ℝ := Real.sqrt (((0 : ℝ) * (1 / (104 / 1000 * 256))) ^ 2 +
      ((0 : ℝ) * (1 / (104 / 1000 * 256))) ^ 2)
    kr ≤ rc ∧ out.data 0 0 0 = 0 ∧ out.data 1 0 0 = 0 ∧
    out.data 0 0 0 ≠ g.data 0 0 0 * ((1 / (1 + 1 / 10000)) * (1 - kr / rc)) := by
  intro g otf out rc kr
  have hkr : kr = 0 := by
    show Real.sqrt _ = 0
    norm_num
  have hP := (wienerfilter_processed Real.sqrt g
      (dataFreqSteps (104 / 1000 : ℝ) (25 / 100) 256 256 64).1
      (dataFreqSteps (104 / 1000 : ℝ) (25 / 100) 256 256 64).2.1
      (dataFreqSteps (104 / 1000 : ℝ) (25 / 100) 256 256 64).2.2 otf
      (otfFreqSteps 1 3 (104 / 1000 : ℝ) (1 / 10)).1
      (otfFreqSteps 1 3 (104 / 1000 : ℝ) (1 / 10)).2
      (rdistcutoff (12 / 10) (525 / 1000)) (1 / 100)).2.1 0 0 0
    ⟨by norm_num [g], by norm_num [g], by norm_num [g]⟩
  have hz := wienerValue_single_row otf rfl
  rw [(hz _ _ _ _ _ _ _ _ _ _ _ _).1, (hz _ _ _ _ _ _ _ _ _ _ _ _).2,
    show (2 : ℤ) * 0 + 1 = 1 from rfl, show (2 : ℤ) * 0 = 0 from rfl] at hP
  have h0 : out.data 0 0 0 = 0 := hP.1
  have h1 : out.data 1 0 0 = 0 := hP.2
  have hg : g.data 0 0 0 = 7 := rfl
  refine ⟨by rw [hkr]; norm_num [rc], h0, h1, ?_⟩
  rw [h0, hkr, hg]
  norm_num [rc]

/-- C3 (amended): with `wiener = 0.01`, `rdistcutoff = 2*1.2/0.525`, the
default pixel sizes (image 0.104 / 0.25, PSF 0.104 / 0.1) and an OTF table
whose entries are all `1+0i` and which has at least two radial samples and
one axial sample, the one-shot call of `wienerfilter` on the half-spectrum
`g` of a volume replaces every voxel with `kr ≤ rdistcutoff` by its input
value times `(1/(1+0.0001))*(1 - kr/rdistcutoff)`, the interpolated OTF
value there being exactly `1+0i`, and every voxel with `kr > rdistcutoff`
by zero.  Here `kr = sqrt((j*dkx)² + (ky*dky)²)` with `dkx = 1/(0.104*X)`,
`dky = 1/(0.104*ny)` and `ky` the index `i` folded to `i - ny` above
`ny/2`. -/
theorem wienerfilter_unit_otf_scenario (g : CImg ℝ) (otf : OtfImg ℝ)
    (hX : 2 < g.width)
    (hnr : 2 ≤ otf.height) (hnzo : 1 ≤ otf.width / 2)
    (hones : ∀ n : ℤ, 0 ≤ n → n < (otf.height : ℤ) * ((otf.width : ℤ) / 2) →
      otf.cdata n = ⟨1, 0⟩)
    (j i k : ℤ) (hj : 0 ≤ j ∧ j < (g.width : ℤ) / 2) (hi : 0 ≤ i ∧ i < (g.height : ℤ))
    (hk : 0 ≤ k ∧ k < (g.depth : ℤ)) :
    let out : CImg ℝ := wienerfilter Real.sqrt g
      (dataFreqSteps (104 / 1000 : ℝ) (25 / 100) ((g.width : ℤ) - 2) (g.height : ℤ)
        (g.depth : ℤ)).1
      (dataFreqSteps (104 / 1000 : ℝ) (25 / 100) ((g.width : ℤ) - 2) (g.height : ℤ)
        (g.depth : ℤ)).2.1
      (dataFreqSteps (104 / 1000 : ℝ) (25 / 100) ((g.width : ℤ) - 2) (g.height : ℤ)
        (g.depth : ℤ)).2.2 otf
      (otfFreqSteps (otf.height : ℤ) ((otf.width : ℤ) / 2) (104 / 1000 : ℝ) (1 / 10)).1
      (otfFreqSteps (otf.height : ℤ) ((otf.width : ℤ) / 2) (104 / 1000 : ℝ) (1 / 10)).2
      (rdistcutoff (12 / 10) (525 / 1000)) (1 / 100)
    let dkx : ℝ := 1 / (104 / 1000 * ((((g.width : ℤ) - 2 : ℤ)) : ℝ))
    let dky : ℝ := 1 / (104 / 1000 * (((g.height : ℤ)) : ℝ))
    let dkz : ℝ := 1 / (25 / 100 * (((g.depth : ℤ)) : ℝ))
    let dkr_otf : ℝ := 1 / ((((((otf.height : ℤ) - 1) * 2 : ℤ)) : ℝ) * (104 / 1000))
    let dkz_otf : ℝ := 1 / (((((otf.width : ℤ) / 2 : ℤ)) : ℝ) * (1 / 10))
    let rc : ℝ := 2 * (12 / 10) / (525 / 1000)
    let ky : ℝ := (((if i > (g.height : ℤ) / 2 then i - (g.height : ℤ) else i : ℤ)) : ℝ)
    let kz : ℝ := (((if k > (g.depth : ℤ) / 2 then k - (g.depth : ℤ) else k : ℤ)) : ℝ)
    let kr : ℝ := Real.sqrt (((j : ℝ) * dkx) ^ 2 + (ky * dky) ^ 2)
    (kr ≤ rc →
      otfinterpolate Real.sqrt otf.cdata ((j : ℝ) * (dkx / dkr_otf)) (ky * (dky / dkr_otf))
        (kz * (dkz / dkz_otf)) ((otf.width : ℤ) / 2) (otf.height : ℤ) = ⟨1, 0⟩ ∧
      out.data (2 * j) i k = g.data (2 * j) i k * ((1 / (1 + 1 / 10000)) * (1 - kr / rc)) ∧
      out.data (2 * j + 1) i k =
        g.data (2 * j + 1) i k * ((1 / (1 + 1 / 10000)) * (1 - kr / rc))) ∧
    (rc < kr → out.data (2 * j) i k = 0 ∧ out.data (2 * j + 1) i k = 0) := by
  intro out dkx dky dkz dkr_otf dkz_otf rc ky kz kr
  exact wienerfilter_unit_otf_steps g otf hX hnr hnzo hones j i k hj hi hk

/-- Witness for C3 (amended): the half-spectrum (258 by 256 by 64 floats)
of a (64,256,256) volume, a 2-by-3 table of ones, voxel
`(j, i, k) = (5, 200, 40)`, where `ky = -56`, `kz = -24` and `kr` is about
2.11, inside the cutoff 4.57. -/
theorem wienerfilter_unit_otf_scenario_witness :
    let g : CImg ℝ := ⟨258, 256, 64, fun x y z => (x : ℝ) + (y : ℝ) + (z : ℝ)⟩
    let otf : OtfImg ℝ := ⟨6, 2, fun _ => ⟨1, 0⟩⟩
    let j : ℤ := 5
    let i : ℤ := 200
    let k : ℤ := 40
    let out : CImg ℝ := wienerfilter Real.sqrt g
      (dataFreqSteps (104 / 1000 : ℝ) (25 / 100) ((g.width : ℤ) - 2) (g.height : ℤ)
        (g.depth : ℤ)).1
      (dataFreqSteps (104 / 1000 : ℝ) (25 / 100) ((g.width : ℤ) - 2) (g.height : ℤ)
        (g.depth : ℤ)).2.1
      (dataFreqSteps (104 / 1000 : ℝ) (25 / 100) ((g.width : ℤ) - 2) (g.height : ℤ)
        (g.depth : ℤ)).2.2 otf
      (otfFreqSteps (otf.height : ℤ) ((otf.width : ℤ) / 2) (104 / 1000 : ℝ) (1 / 10)).1
      (otfFreqSteps (otf.height : ℤ) ((otf.width : ℤ) / 2) (104 / 1000 : ℝ) (1 / 10)).2
      (rdistcutoff (12 / 10) (525 / 1000)) (1 / 100)
    let dkx : ℝ := 1 / (104 / 1000 * ((((g.width : ℤ) - 2 : ℤ)) : ℝ))
    let dky : ℝ := 1 / (104 / 1000 * (((g.height : ℤ)) : ℝ))
    let dkz : ℝ := 1 / (25 / 100 * (((g.depth : ℤ)) : ℝ))
    let dkr_otf : ℝ := 1 / ((((((otf.height : ℤ) - 1) * 2 : ℤ)) : ℝ) * (104 / 1000))
    let dkz_otf : ℝ := 1 / (((((otf.width : ℤ) / 2 : ℤ)) : ℝ) * (1 / 10))
    let rc : ℝ := 2 * (12 / 10) / (525 / 1000)
    let ky : ℝ := (((if i > (g.height : ℤ) / 2 then i - (g.height : ℤ) else i : ℤ)) : ℝ)
    let kz : ℝ := (((if k > (g.depth : ℤ) / 2 then k - (g.depth : ℤ) else k : ℤ)) : ℝ)
    let kr : ℝ := Real.sqrt (((j : ℝ) * dkx) ^ 2 + (ky * dky) ^ 2)
    (ky = -56 ∧ kz = -24 ∧ kr ≤ rc) ∧
    otfinterpolate Real.sqrt otf.cdata ((j : ℝ) * (dkx / dkr_otf)) (ky * (dky / dkr_otf))
      (kz * (dkz / dkz_otf)) ((otf.width : ℤ) / 2) (otf.height : ℤ) = ⟨1, 0⟩ ∧
    out.data (2 * j) i k = g.data (2 * j) i k * ((1 / (1 + 1 / 10000)) * (1 - kr / rc)) ∧
    out.data (2 * j + 1) i k =
      g.data (2 * j + 1) i k * ((1 / (1 + 1 / 10000)) * (1 - kr / rc)) := by
  intro g otf j i k out dkx dky dkz dkr_otf dkz_otf rc ky kz kr
  have hky : ky = -56 := by
    simp only [ky, i, g]
    norm_num
  have hkz : kz = -24 := by
    simp only [kz, k, g]
    norm_num
  have hkr : kr ≤ rc := by
    simp only [kr, hky, rc, dkx, dky, j, g]
    rw [Real.sqrt_le_iff]
    norm_num
  exact ⟨⟨hky, hkz, hkr⟩,
    (wienerfilter_unit_otf_scenario g otf (by norm_num [g]) (by norm_num [otf])
      (by norm_num [otf]) (fun _ _ _ => rfl) 5 200 40 (by norm_num [g]) (by norm_num [g])
      (by norm_num [g])).1 hkr⟩

end WienerTheorems

section ApodizeLemmas

variable {F : Type} [LinearOrderedField F]

/-- The two inner loops and the two middle loops of `apodize` are instances
of `taperLine` and `taperPass`. -/
theorem apodize_eq_taperPass (sinf : F → F) (pi : F) (napodize : ℤ) (image : CImg F) :
    apodize sinf pi napodize image =
      forLoop image.depth (fun z img0 =>
        taperPass (taperFact sinf pi napodize)
          (fun l => ((0 : ℤ), l, z))
          (fun l => ((if (image.width : ℤ) - (image.height : ℤ) = 2 then (image.width : ℤ) - 2
            else (image.width : ℤ)) - 1, l, z))
          (fun l k => (k, l, z))
          (fun l k => ((if (image.width : ℤ) - (image.height : ℤ) = 2 then (image.width : ℤ) - 2
            else (image.width : ℤ)) - 1 - k, l, z))
          (image.height : ℤ).toNat napodize.toNat
          (taperPass (taperFact sinf pi napodize)
            (fun k => (k, (0 : ℤ), z)) (fun k => (k, (image.height : ℤ) - 1, z))
            (fun k l => (k, l, z)) (fun k l => (k, (image.height : ℤ) - 1 - l, z))
            (if (image.width : ℤ) - (image.height : ℤ) = 2 then (image.width : ℤ) - 2
              else (image.width : ℤ)).toNat napodize.toNat img0)) image :=
  rfl

/-- A position that no pass of `taperLine` writes keeps its sample. -/
theorem taperLine_frame (f : ℤ → F) (d : F) (p q : ℤ → Cell) (n : ℕ) (im : CImg F) (c : Cell)
    (h : ∀ b : ℕ, b < n → c ≠ p (b : ℤ) ∧ c ≠ q (b : ℤ)) :
    (taperLine f d p q n im).get c = im.get c := by
  unfold taperLine
  refine forLoop_invariant (fun _ st => st.get c = im.get c) n _ im rfl ?_
  intro m hm st hst
  obtain ⟨h1, h2⟩ := h m hm
  rw [CImg.get_put_ne _ _ _ _ h2, CImg.get_put_ne _ _ _ _ h1]
  exact hst

/-- The two end samples of a line after `taperLine`, when only the first
pass writes them. -/
theorem taperLine_ends (f : ℤ → F) (d : F) (p q : ℤ → Cell) (n : ℕ) (im : CImg F)
    (hn : 1 ≤ n) (hpq : p 0 ≠ q 0)
    (hsep : ∀ b : ℕ, 1 ≤ b → b < n →
      p (b : ℤ) ≠ p 0 ∧ p (b : ℤ) ≠ q 0 ∧ q (b : ℤ) ≠ p 0 ∧ q (b : ℤ) ≠ q 0) :
    (taperLine f d p q n im).get (p 0) = im.get (p 0) + d * f 0 ∧
    (taperLine f d p q n im).get (q 0) = im.get (q 0) - d * f 0 := by
  unfold taperLine
  have key := forLoop_invariant
    (fun m st => (1 ≤ m → st.get (p 0) = im.get (p 0) + d * f 0 ∧
        st.get (q 0) = im.get (q 0) - d * f 0) ∧
      (m = 0 → st.get (p 0) = im.get (p 0) ∧ st.get (q 0) = im.get (q 0)))
    n (fun b im0 =>
      (im0.put (p b) (im0.get (p b) + d * f b)).put (q b)
        ((im0.put (p b) (im0.get (p b) + d * f b)).get (q b) - d * f b)) im
    ⟨fun h => absurd h (by omega), fun _ => ⟨rfl, rfl⟩⟩ ?_
  · exact key.1 hn
  · intro m hm st hst
    refine ⟨fun _ => ?_, fun h => absurd h (by omega)⟩
    rcases Nat.eq_zero_or_pos m with h0 | hpos
    · subst h0
      obtain ⟨e1, e2⟩ := hst.2 rfl
      simp only [Nat.cast_zero]
      constructor
      · rw [CImg.get_put_ne _ _ _ _ hpq, CImg.get_put_same, e1]
      · rw [CImg.get_put_same, CImg.get_put_ne _ _ _ _ (Ne.symm hpq), e2]
    · obtain ⟨e1, e2⟩ := hst.1 hpos
      obtain ⟨s1, s2, s3, s4⟩ := hsep m hpos hm
      constructor
      · rw [CImg.get_put_ne _ _ _ _ (Ne.symm s3), CImg.get_put_ne _ _ _ _ (Ne.symm s1), e1]
      · rw [CImg.get_put_ne _ _ _ _ (Ne.symm s4), CImg.get_put_ne _ _ _ _ (Ne.symm s2), e2]

/-- A position that no line of `taperPass` writes keeps its sample. -/
theorem taperPass_frame (f : ℤ → F) (P0 Q0 : ℤ → Cell) (P Q : ℤ → ℤ → Cell) (N n : ℕ)
    (img : CImg F) (c : Cell)
    (h : ∀ a b : ℕ, a < N → b < n → c ≠ P (a : ℤ) (b : ℤ) ∧ c ≠ Q (a : ℤ) (b : ℤ)) :
    (taperPass f P0 Q0 P Q N n img).get c = img.get c := by
  unfold taperPass
  refine forLoop_invariant (fun _ st => st.get c = img.get c) N _ img rfl ?_
  intro m hm st hst
  show (taperLine f _ (P (m : ℤ)) (Q (m : ℤ)) n st).get c = img.get c
  rw [taperLine_frame f _ _ _ n st c (fun b hb => h m b hm hb)]
  exact hst

/-- The two end samples of line `a0` after `taperPass`: each has moved
towards the other by the fraction `f 0` of half their difference. -/
theorem taperPass_ends (f : ℤ → F) (P0 Q0 : ℤ → Cell) (P Q : ℤ → ℤ → Cell) (N n : ℕ)
    (img : CImg F) (a0 : ℕ) (ha0 : a0 < N) (hn : 1 ≤ n)
    (hP0 : P (a0 : ℤ) 0 = P0 (a0 : ℤ)) (hQ0 : Q (a0 : ℤ) 0 = Q0 (a0 : ℤ))
    (hpq : P0 (a0 : ℤ) ≠ Q0 (a0 : ℤ))
    (hsep1 : ∀ b : ℕ, 1 ≤ b → b < n →
      P (a0 : ℤ) (b : ℤ) ≠ P0 (a0 : ℤ) ∧ P (a0 : ℤ) (b : ℤ) ≠ Q0 (a0 : ℤ) ∧
      Q (a0 : ℤ) (b : ℤ) ≠ P0 (a0 : ℤ) ∧ Q (a0 : ℤ) (b : ℤ) ≠ Q0 (a0 : ℤ))
    (hsep2 : ∀ a b : ℕ, a < N → a ≠ a0 → b < n →
      P (a : ℤ) (b : ℤ) ≠ P0 (a0 : ℤ) ∧ P (a : ℤ) (b : ℤ) ≠ Q0 (a0 : ℤ) ∧
      Q (a : ℤ) (b : ℤ) ≠ P0 (a0 : ℤ) ∧ Q (a : ℤ) (b : ℤ) ≠ Q0 (a0 : ℤ)) :
    (taperPass f P0 Q0 P Q N n img).get (P0 (a0 : ℤ)) =
      img.get (P0 (a0 : ℤ)) +
        (img.get (Q0 (a0 : ℤ)) - img.get (P0 (a0 : ℤ))) * (1 / 2) * f 0 ∧
    (taperPass f P0 Q0 P Q N n img).get (Q0 (a0 : ℤ)) =
      img.get (Q0 (a0 : ℤ)) -
        (img.get (Q0 (a0 : ℤ)) - img.get (P0 (a0 : ℤ))) * (1 / 2) * f 0 := by
  unfold taperPass
  have key := forLoop_invariant
    (fun m st =>
      (a0 < m → st.get (P0 (a0 : ℤ)) = img.get (P0 (a0 : ℤ)) +
          (img.get (Q0 (a0 : ℤ)) - img.get (P0 (a0 : ℤ))) * (1 / 2) * f 0 ∧
        st.get (Q0 (a0 : ℤ)) = img.get (Q0 (a0 : ℤ)) -
          (img.get (Q0 (a0 : ℤ)) - img.get (P0 (a0 : ℤ))) * (1 / 2) * f 0) ∧
      (m ≤ a0 → st.get (P0 (a0 : ℤ)) = img.get (P0 (a0 : ℤ)) ∧
        st.get (Q0 (a0 : ℤ)) = img.get (Q0 (a0 : ℤ))))
    N (fun a im =>
      taperLine f ((im.get (Q0 a) - im.get (P0 a)) * (1 / 2)) (P a) (Q a) n im) img
    ⟨fun h => absurd h (by omega), fun _ => ⟨rfl, rfl⟩⟩ ?_
  · exact key.1 ha0
  · intro m hm st hst
    have hframe : m ≠ a0 →
        (taperLine f ((st.get (Q0 (m : ℤ)) - st.get (P0 (m : ℤ))) * (1 / 2))
          (P (m : ℤ)) (Q (m : ℤ)) n st).get (P0 (a0 : ℤ)) = st.get (P0 (a0 : ℤ)) ∧
        (taperLine f ((st.get (Q0 (m : ℤ)) - st.get (P0 (m : ℤ))) * (1 / 2))
          (P (m : ℤ)) (Q (m : ℤ)) n st).get (Q0 (a0 : ℤ)) = st.get (Q0 (a0 : ℤ)) := by
      intro hne
      constructor
      · exact taperLine_frame f _ _ _ n st _
          (fun b hb => ⟨Ne.symm (hsep2 m b hm hne hb).1, Ne.symm (hsep2 m b hm hne hb).2.2.1⟩)
      · exact taperLine_frame f _ _ _ n st _
          (fun b hb => ⟨Ne.symm (hsep2 m b hm hne hb).2.1, Ne.symm (hsep2 m b hm hne hb).2.2.2⟩)
    rcases lt_trichotomy m a0 with hlt | heq | hgt
    · refine ⟨fun h => absurd h (by omega), fun _ => ?_⟩
      obtain ⟨e1, e2⟩ := hst.2 hlt.le
      obtain ⟨g1, g2⟩ := hframe (by omega)
      exact ⟨g1.trans e1, g2.trans e2⟩
    · subst heq
      refine ⟨fun _ => ?_, fun h => absurd h (by omega)⟩
      obtain ⟨e1, e2⟩ := hst.2 le_rfl
      have hends := taperLine_ends f ((st.get (Q0 (m : ℤ)) - st.get (P0 (m : ℤ))) * (1 / 2))
        (P (m : ℤ)) (Q (m : ℤ)) n st hn (by rw [hP0, hQ0]; exact hpq)
        (fun b hb1 hb2 => by rw [hP0, hQ0]; exact hsep1 b hb1 hb2)
      rw [hP0, hQ0, e1, e2] at hends
      beta_reduce
      rw [e1, e2]
      exact hends
    · refine ⟨fun _ => ?_, fun h => absurd h (by omega)⟩
      obtain ⟨e1, e2⟩ := hst.1 hgt
      obtain ⟨g1, g2⟩ := hframe (by omega)
      exact ⟨g1.trans e1, g2.trans e2⟩

/-- Column discontinuity after `apodize`: for a column that the second
(horizontal) taper does not reach, the difference between the last and the
first row is the old difference times `1 - fact(0)`. -/
theorem apodize_column_diff (sinf : F → F) (pi : F) (image : CImg F) (n z0 k0 : ℕ)
    (nx : ℤ)
    (hnx : nx = if (image.width : ℤ) - (image.height : ℤ) = 2 then (image.width : ℤ) - 2
      else (image.width : ℤ))
    (hn : 1 ≤ n) (hz0 : z0 < image.depth) (hny : (n : ℤ) < (image.height : ℤ))
    (hk : (n : ℤ) ≤ (k0 : ℤ) ∧ (k0 : ℤ) < nx - (n : ℤ)) :
    (apodize sinf pi (n : ℤ) image).data (k0 : ℤ) ((image.height : ℤ) - 1) (z0 : ℤ) -
      (apodize sinf pi (n : ℤ) image).data (k0 : ℤ) 0 (z0 : ℤ) =
    (image.data (k0 : ℤ) ((image.height : ℤ) - 1) (z0 : ℤ) - image.data (k0 : ℤ) 0 (z0 : ℤ)) *
      (1 - taperFact sinf pi (n : ℤ) 0) := by
  rw [apodize_eq_taperPass, ← hnx]
  have hmain := sliceLoop_at
    (fun z img0 =>
        taperPass (taperFact sinf pi (n : ℤ))
          (fun l => ((0 : ℤ), l, z)) (fun l => (nx - 1, l, z))
          (fun l k => (k, l, z)) (fun l k => (nx - 1 - k, l, z))
          (image.height : ℤ).toNat (n : ℤ).toNat
          (taperPass (taperFact sinf pi (n : ℤ))
            (fun k => (k, (0 : ℤ), z)) (fun k => (k, (image.height : ℤ) - 1, z))
            (fun k l => (k, l, z)) (fun k l => (k, (image.height : ℤ) - 1 - l, z))
            nx.toNat (n : ℤ).toNat img0))
    image.depth image z0 hz0 ((k0 : ℤ), (0 : ℤ), (z0 : ℤ))
    ((k0 : ℤ), (image.height : ℤ) - 1, (z0 : ℤ))
    (image.data (k0 : ℤ) 0 (z0 : ℤ) +
      (image.data (k0 : ℤ) ((image.height : ℤ) - 1) (z0 : ℤ) - image.data (k0 : ℤ) 0 (z0 : ℤ)) *
        (1 / 2) * taperFact sinf pi (n : ℤ) 0)
    (image.data (k0 : ℤ) ((image.height : ℤ) - 1) (z0 : ℤ) -
      (image.data (k0 : ℤ) ((image.height : ℤ) - 1) (z0 : ℤ) - image.data (k0 : ℤ) 0 (z0 : ℤ)) *
        (1 / 2) * taperFact sinf pi (n : ℤ) 0) ?_ ?_
  · obtain ⟨h1, h2⟩ := hmain
    simp only [CImg.get] at h1 h2
    rw [h1, h2]
    ring
  · intro m hm st
    have hzne : (z0 : ℤ) ≠ (m : ℤ) := by omega
    constructor
    · rw [taperPass_frame _ _ _ _ _ _ _ _ _
          (fun a b _ _ => ⟨cell_ne_z hzne, cell_ne_z hzne⟩),
        taperPass_frame _ _ _ _ _ _ _ _ _
          (fun a b _ _ => ⟨cell_ne_z hzne, cell_ne_z hzne⟩)]
    · rw [taperPass_frame _ _ _ _ _ _ _ _ _
          (fun a b _ _ => ⟨cell_ne_z hzne, cell_ne_z hzne⟩),
        taperPass_frame _ _ _ _ _ _ _ _ _
          (fun a b _ _ => ⟨cell_ne_z hzne, cell_ne_z hzne⟩)]
  · intro st e1 e2
    have hends := taperPass_ends (taperFact sinf pi (n : ℤ))
      (fun k => (k, (0 : ℤ), (z0 : ℤ))) (fun k => (k, (image.height : ℤ) - 1, (z0 : ℤ)))
      (fun k l => (k, l, (z0 : ℤ))) (fun k l => (k, (image.height : ℤ) - 1 - l, (z0 : ℤ)))
      nx.toNat (n : ℤ).toNat st k0 (by omega) (by simpa using hn) rfl (by simp)
      (cell_ne_y (by simp only []; omega))
      (fun b hb1 hb2 => by
        have hb2' : b < n := by simpa using hb2
        refine ⟨cell_ne_y ?_, cell_ne_y ?_, cell_ne_y ?_, cell_ne_y ?_⟩ <;> simp only [] <;> omega)
      (fun a b _ ha _ => by
        refine ⟨cell_ne_x ?_, cell_ne_x ?_, cell_ne_x ?_, cell_ne_x ?_⟩ <;> simp only [] <;> omega)
    simp only [] at hends
    rw [e1, e2] at hends
    constructor
    · rw [taperPass_frame _ _ _ _ _ _ _ _ _ (fun a b _ hb => by
          have hb' : b < n := by simpa using hb
          refine ⟨cell_ne_x ?_, cell_ne_x ?_⟩ <;> simp only [] <;> omega)]
      exact hends.1
    · rw [taperPass_frame _ _ _ _ _ _ _ _ _ (fun a b _ hb => by
          have hb' : b < n := by simpa using hb
          refine ⟨cell_ne_x ?_, cell_ne_x ?_⟩ <;> simp only [] <;> omega)]
      exact hends.2

/-- Row discontinuity after `apodize`: for a row that the first (vertical)
taper does not reach, the difference between the last and the first column
is the old difference times `1 - fact(0)`. -/
theorem apodize_row_diff (sinf : F → F) (pi : F) (image : CImg F) (n z0 l0 : ℕ)
    (nx : ℤ)
    (hnx : nx = if (image.width : ℤ) - (image.height : ℤ) = 2 then (image.width : ℤ) - 2
      else (image.width : ℤ))
    (hn : 1 ≤ n) (hz0 : z0 < image.depth) (hnx' : (n : ℤ) < nx)
    (hl : (n : ℤ) ≤ (l0 : ℤ) ∧ (l0 : ℤ) < (image.height : ℤ) - (n : ℤ)) :
    (apodize sinf pi (n : ℤ) image).data (nx - 1) (l0 : ℤ) (z0 : ℤ) -
      (apodize sinf pi (n : ℤ) image).data 0 (l0 : ℤ) (z0 : ℤ) =
    (image.data (nx - 1) (l0 : ℤ) (z0 : ℤ) - image.data 0 (l0 : ℤ) (z0 : ℤ)) *
      (1 - taperFact sinf pi (n : ℤ) 0) := by
  rw [apodize_eq_taperPass, ← hnx]
  have hmain := sliceLoop_at
    (fun z img0 =>
        taperPass (taperFact sinf pi (n : ℤ))
          (fun l => ((0 : ℤ), l, z)) (fun l => (nx - 1, l, z))
          (fun l k => (k, l, z)) (fun l k => (nx - 1 - k, l, z))
          (image.height : ℤ).toNat (n : ℤ).toNat
          (taperPass (taperFact sinf pi (n : ℤ))
            (fun k => (k, (0 : ℤ), z)) (fun k => (k, (image.height : ℤ) - 1, z))
            (fun k l => (k, l, z)) (fun k l => (k, (image.height : ℤ) - 1 - l, z))
            nx.toNat (n : ℤ).toNat img0))
    image.depth image z0 hz0 ((0 : ℤ), (l0 : ℤ), (z0 : ℤ)) (nx - 1, (l0 : ℤ), (z0 : ℤ))
    (image.data 0 (l0 : ℤ) (z0 : ℤ) +
      (image.data (nx - 1) (l0 : ℤ) (z0 : ℤ) - image.data 0 (l0 : ℤ) (z0 : ℤ)) *
        (1 / 2) * taperFact sinf pi (n : ℤ) 0)
    (image.data (nx - 1) (l0 : ℤ) (z0 : ℤ) -
      (image.data (nx - 1) (l0 : ℤ) (z0 : ℤ) - image.data 0 (l0 : ℤ) (z0 : ℤ)) *
        (1 / 2) * taperFact sinf pi (n : ℤ) 0) ?_ ?_
  · obtain ⟨h1, h2⟩ := hmain
    simp only [CImg.get] at h1 h2
    rw [h1, h2]
    ring
  · intro m hm st
    have hzne : (z0 : ℤ) ≠ (m : ℤ) := by omega
    constructor
    · rw [taperPass_frame _ _ _ _ _ _ _ _ _
          (fun a b _ _ => ⟨cell_ne_z hzne, cell_ne_z hzne⟩),
        taperPass_frame _ _ _ _ _ _ _ _ _
          (fun a b _ _ => ⟨cell_ne_z hzne, cell_ne_z hzne⟩)]
    · rw [taperPass_frame _ _ _ _ _ _ _ _ _
          (fun a b _ _ => ⟨cell_ne_z hzne, cell_ne_z hzne⟩),
        taperPass_frame _ _ _ _ _ _ _ _ _
          (fun a b _ _ => ⟨cell_ne_z hzne, cell_ne_z hzne⟩)]
  · intro st e1 e2
    have f1 := taperPass_frame (taperFact sinf pi (n : ℤ))
      (fun k => (k, (0 : ℤ), (z0 : ℤ))) (fun k => (k, (image.height : ℤ) - 1, (z0 : ℤ)))
      (fun k l => (k, l, (z0 : ℤ))) (fun k l => (k, (image.height : ℤ) - 1 - l, (z0 : ℤ)))
      nx.toNat (n : ℤ).toNat st ((0 : ℤ), (l0 : ℤ), (z0 : ℤ)) (fun a b _ hb => by
        have hb' : b < n := by simpa using hb
        refine ⟨cell_ne_y ?_, cell_ne_y ?_⟩ <;> simp only [] <;> omega)
    have f2 := taperPass_frame (taperFact sinf pi (n : ℤ))
      (fun k => (k, (0 : ℤ), (z0 : ℤ))) (fun k => (k, (image.height : ℤ) - 1, (z0 : ℤ)))
      (fun k l => (k, l, (z0 : ℤ))) (fun k l => (k, (image.height : ℤ) - 1 - l, (z0 : ℤ)))
      nx.toNat (n : ℤ).toNat st (nx - 1, (l0 : ℤ), (z0 : ℤ)) (fun a b _ hb => by
        have hb' : b < n := by simpa using hb
        refine ⟨cell_ne_y ?_, cell_ne_y ?_⟩ <;> simp only [] <;> omega)
    have hends := taperPass_ends (taperFact sinf pi (n : ℤ))
      (fun l => ((0 : ℤ), l, (z0 : ℤ))) (fun l => (nx - 1, l, (z0 : ℤ)))
      (fun l k => (k, l, (z0 : ℤ))) (fun l k => (nx - 1 - k, l, (z0 : ℤ)))
      (image.height : ℤ).toNat (n : ℤ).toNat
      (taperPass (taperFact sinf pi (n : ℤ))
        (fun k => (k, (0 : ℤ), (z0 : ℤ))) (fun k => (k, (image.height : ℤ) - 1, (z0 : ℤ)))
        (fun k l => (k, l, (z0 : ℤ))) (fun k l => (k, (image.height : ℤ) - 1 - l, (z0 : ℤ)))
        nx.toNat (n : ℤ).toNat st)
      l0 (by omega) (by simpa using hn) rfl (by simp)
      (cell_ne_x (by simp only []; omega))
      (fun b hb1 hb2 => by
        have hb2' : b < n := by simpa using hb2
        refine ⟨cell_ne_x ?_, cell_ne_x ?_, cell_ne_x ?_, cell_ne_x ?_⟩ <;> simp only [] <;> omega)
      (fun a b _ ha _ => by
        refine ⟨cell_ne_y ?_, cell_ne_y ?_, cell_ne_y ?_, cell_ne_y ?_⟩ <;> simp only [] <;> omega)
    simp only [] at hends
    rw [f1, f2, e1, e2] at hends
    exact hends

end ApodizeLemmas

section ApodizeTheorems

/-- What `apodize` with `napodize = 1` makes of the first column of a
2-by-2 slice `a b / c d` (rows `y = 0` and `y = 1`). -/
theorem apodize_two_by_two {F : Type} [LinearOrderedField F] (sinf : F → F) (pi : F)
    (a b c d : F) :
    (apodize sinf pi 1 (⟨2, 2, 1, fun x y _ =>
        if x = 0 then (if y = 0 then a else c) else (if y = 0 then b else d)⟩ : CImg F)).data 0 1 0 -
      (apodize sinf pi 1 (⟨2, 2, 1, fun x y _ =>
        if x = 0 then (if y = 0 then a else c) else (if y = 0 then b else d)⟩ : CImg F)).data 0 0 0 =
    sinf (1 / 2 * pi * (1 / 2)) *
      ((c - a) * (1 - (1 - sinf (1 / 2 * pi * (1 / 2))) / 2) +
        (d - b) * ((1 - sinf (1 / 2 * pi * (1 / 2))) / 2)) := by
  have h1 : Int.toNat 1 = 1 := rfl
  have h2 : Int.toNat 2 = 2 := rfl
  simp only [apodize, Nat.cast_ofNat, h1, h2, forLoop_one, forLoop_two, CImg.set_data]
  norm_num [h1, h2, forLoop_one, forLoop_two, CImg.set_data]
  ring

/-- The taper angle of the first pass lies strictly between 0 and a right
angle, so its sine lies strictly between 0 and 1. -/
theorem sin_first_taper_angle (n : ℕ) (hn : 1 ≤ n) :
    0 < 1 - taperFact Real.sin Real.pi (n : ℤ) 0 ∧
    1 - taperFact Real.sin Real.pi (n : ℤ) 0 < 1 := by
  have hnR : (1 : ℝ) ≤ (n : ℝ) := by exact_mod_cast hn
  have hpi := Real.pi_pos
  have hpi4 := Real.pi_le_four
  have hx : ((((0 : ℤ) : ℝ) + 1 / 2) / (((n : ℤ)) : ℝ)) * Real.pi * (1 / 2) =
      Real.pi / (4 * (n : ℝ)) := by
    have hn0 : (n : ℝ) ≠ 0 := by positivity
    simp only [Int.cast_zero, Int.cast_natCast, zero_add]
    field_simp
    left
    ring
  have hpos : 0 < Real.pi / (4 * (n : ℝ)) := by positivity
  have hle : Real.pi / (4 * (n : ℝ)) ≤ Real.pi / 4 := by
    apply div_le_div_of_nonneg_left hpi.le (by norm_num) (by linarith)
  have hlt315 := Real.pi_lt_d2
  unfold taperFact
  rw [hx]
  constructor
  · have := Real.sin_pos_of_pos_of_lt_pi hpos (by linarith)
    linarith
  · have := Real.sin_lt hpos
    have : Real.pi / 4 < 1 := by linarith
    linarith

/-- C4 (counterexample): a 2-by-2 slice with rows `0 0` and `1 100` and
`napodize = 1`.  The first column differed by 1 between its last and first
row before `apodize` and differs by at least 1 afterwards: the horizontal
taper, which runs second, rewrites both of its corner samples. -/
theorem apodize_corner_discontinuity_grows :
    (⟨2, 2, 1, fun x y _ =>
        if x = 0 then (if y = 0 then 0 else 1) else (if y = 0 then 0 else 100)⟩ : CImg ℝ).data 0 1 0 ≠
      (⟨2, 2, 1, fun x y _ =>
        if x = 0 then (if y = 0 then 0 else 1) else (if y = 0 then 0 else 100)⟩ : CImg ℝ).data 0 0 0 ∧
    ¬ (|(apodize Real.sin Real.pi 1 (⟨2, 2, 1, fun x y _ =>
          if x = 0 then (if y = 0 then 0 else 1)
          else (if y = 0 then 0 else 100)⟩ : CImg ℝ)).data 0 1 0 -
        (apodize Real.sin Real.pi 1 (⟨2, 2, 1, fun x y _ =>
          if x = 0 then (if y = 0 then 0 else 1)
          else (if y = 0 then 0 else 100)⟩ : CImg ℝ)).data 0 0 0| <
      |(⟨2, 2, 1, fun x y _ =>
          if x = 0 then (if y = 0 then 0 else 1)
          else (if y = 0 then 0 else 100)⟩ : CImg ℝ).data 0 1 0 -
        (⟨2, 2, 1, fun x y _ =>
          if x = 0 then (if y = 0 then 0 else 1)
          else (if y = 0 then 0 else 100)⟩ : CImg ℝ).data 0 0 0|) := by
  constructor
  · norm_num
  · rw [apodize_two_by_two Real.sin Real.pi 0 0 1 100]
    have hs : Real.sin (1 / 2 * Real.pi * (1 / 2)) = √2 / 2 := by
      rw [show (1 / 2 * Real.pi * (1 / 2) : ℝ) = Real.pi / 4 by ring]
      exact Real.sin_pi_div_four
    have h2 : (7 / 5 : ℝ) < √2 := by
      rw [Real.lt_sqrt (by norm_num)]
      norm_num
    have h3 : √2 / 2 ≤ 1 := by
      rw [← hs]
      exact Real.sin_le_one _
    rw [hs]
    norm_num
    rw [abs_of_nonneg (by nlinarith)]
    nlinarith

/-- C4 (amended): for a taper width `napodize ≥ 1` and every slice `z`,
`apodize` strictly reduces `|image(k,ny-1) - image(k,0)|` in every column
`k` with `napodize ≤ k < nx - napodize` whose two end samples differed
(given `napodize < ny`), and strictly reduces `|image(nx-1,l) - image(0,l)|`
in every row `l` with `napodize ≤ l < ny - napodize` whose two end samples
differed (given `napodize < nx`); `nx` is the working width of line 113. -/
theorem apodize_interior_discontinuity_decreases (image : CImg ℝ) (napodize : ℤ)
    (hn : 1 ≤ napodize) (z : ℤ) (hz : 0 ≤ z ∧ z < (image.depth : ℤ)) :
    let ny : ℤ := (image.height : ℤ)
    let nx : ℤ := if (image.width : ℤ) - (image.height : ℤ) = 2 then (image.width : ℤ) - 2
      else (image.width : ℤ)
    let out : CImg ℝ := apodize Real.sin Real.pi napodize image
    (napodize < ny → ∀ k : ℤ, napodize ≤ k → k < nx - napodize →
      image.data k (ny - 1) z ≠ image.data k 0 z →
      |out.data k (ny - 1) z - out.data k 0 z| < |image.data k (ny - 1) z - image.data k 0 z|) ∧
    (napodize < nx → ∀ l : ℤ, napodize ≤ l → l < ny - napodize →
      image.data (nx - 1) l z ≠ image.data 0 l z →
      |out.data (nx - 1) l z - out.data 0 l z| < |image.data (nx - 1) l z - image.data 0 l z|) := by
  obtain ⟨hz0, hz1⟩ := hz
  lift napodize to ℕ using (by omega) with n
  lift z to ℕ using hz0 with z0
  have hn' : 1 ≤ n := by exact_mod_cast hn
  have hz0' : z0 < image.depth := by exact_mod_cast hz1
  obtain ⟨hs0, hs1⟩ := sin_first_taper_angle n hn'
  have shrink : ∀ D : ℝ, D ≠ 0 →
      |D * (1 - taperFact Real.sin Real.pi (n : ℤ) 0)| < |D| := by
    intro D hD
    rw [abs_mul, abs_of_pos hs0]
    have : 0 < |D| := abs_pos.mpr hD
    nlinarith
  constructor
  · intro hny k hk1 hk2 hne
    lift k to ℕ using (by omega) with k0
    rw [apodize_column_diff Real.sin Real.pi image n z0 k0 _ rfl hn' hz0' hny ⟨hk1, hk2⟩]
    exact shrink _ (sub_ne_zero.mpr hne)
  · intro hnx l hl1 hl2 hne
    lift l to ℕ using (by omega) with l0
    rw [apodize_row_diff Real.sin Real.pi image n z0 l0 _ rfl hn' hz0' hnx ⟨hl1, hl2⟩]
    exact shrink _ (sub_ne_zero.mpr hne)

/-- Witness for C4 (amended): a 3-by-3 slice with samples `x + 2y`, taper
width 1, the middle column and the middle row. -/
theorem apodize_interior_discontinuity_decreases_witness :
    let image : CImg ℝ := ⟨3, 3, 1, fun x y _ => (x : ℝ) + 2 * (y : ℝ)⟩
    let out : CImg ℝ := apodize Real.sin Real.pi 1 image
    |out.data 1 (3 - 1) 0 - out.data 1 0 0| < |image.data 1 (3 - 1) 0 - image.data 1 0 0| ∧
    |out.data (3 - 1) 1 0 - out.data 0 1 0| < |image.data (3 - 1) 1 0 - image.data 0 1 0| := by
  intro image out
  have h := apodize_interior_discontinuity_decreases image 1 (by norm_num) 0 (by norm_num)
  simp only [] at h
  constructor
  · have h1 := h.1 (by norm_num) 1 (by norm_num) (by norm_num) (by norm_num)
    simpa using h1
  · have h2 := h.2 (by norm_num) 1 (by norm_num) (by norm_num) (by norm_num)
    simpa using h2

end ApodizeTheorems

section WidthTheorems

/-- C10: the guard `!fabs(deskewAngle) > 0.0` of line 251 is true exactly
when `deskewAngle == 0`; in that case the X extent becomes
`findOptimalDimension(nx)` and the crop flag is raised when that differs
from `nx`; for every non-zero angle `new_nx` stays `nx` and the flag is
untouched. -/
theorem initWidth_optimizes_iff_no_deskew {F : Type} [LinearOrderedField F]
    (findOptimalDimension : ℤ → ℤ) (deskewAngle : F)
    (nx : ℤ) (bCrop : Bool) :
    (widthGuard deskewAngle = true ↔ deskewAngle = 0) ∧
    initWidth findOptimalDimension deskewAngle nx bCrop =
      (if deskewAngle = 0 then
        (findOptimalDimension nx, if findOptimalDimension nx ≠ nx then true else bCrop)
      else (nx, bCrop)) := by
  have hg : widthGuard deskewAngle = true ↔ deskewAngle = 0 := by
    unfold widthGuard boolToFloat logicalNot
    by_cases h : deskewAngle = 0
    · simp [h]
    · simp [h]
  refine ⟨hg, ?_⟩
  unfold initWidth
  by_cases h : deskewAngle = 0
  · rw [if_pos (hg.mpr h), if_pos h]
    by_cases hc : findOptimalDimension nx ≠ nx
    · simp only [hc, if_true, ne_eq, not_false_eq_true]
    · simp only [hc, if_false]
  · have hg' : ¬ (widthGuard deskewAngle = true) := fun e => h (hg.mp e)
    rw [if_neg hg', if_neg h]

end WidthTheorems

section MainTheorems

variable {F : Type} [LinearOrderedField F] [FloorRing F]

/-- C7 (amended): with a non-zero deskew angle and a user-supplied output
width `w ≠ 0`, the output X extent `deskewedXdim` is
`findOptimalDimension(w)`, for every `w` and every dimension optimizer. -/
theorem deskewSetup_user_width (cosf sinf : F → F) (pi : F) (findOptimalDimension : ℤ → ℤ)
    (deskewAngle : F) (w : ℕ) (new_nx new_nz : ℤ) (dz dr : F)
    (hangle : deskewAngle ≠ 0) (hw : w ≠ 0) :
    (deskewSetup cosf sinf pi findOptimalDimension deskewAngle w new_nx new_nz dz dr).deskewedXdim
      = findOptimalDimension (w : ℤ) := by
  have h : |deskewAngle| > 0 := abs_pos.mpr hangle
  unfold deskewSetup deskewedXdimArg
  simp only [h, if_true, hw, if_false]

/-- Witness for C7 (amended): angle 30, width 101, the sample optimizer. -/
theorem deskewSetup_user_width_witness :
    (deskewSetup Real.cos Real.sin Real.pi sampleOptimalDimension 30 101 256 64
      (1 / 4) (13 / 125)).deskewedXdim = sampleOptimalDimension ((101 : ℕ) : ℤ) :=
  deskewSetup_user_width Real.cos Real.sin Real.pi sampleOptimalDimension 30 101 256 64
    (1 / 4) (13 / 125) (by norm_num) (by norm_num)

/-- C7 (counterexample): with deskew angle 30 and user width 101, an
optimizer that returns the next extent factoring into 2, 3, 5 and 7 makes
`deskewedXdim` 105, not 101. -/
theorem deskewSetup_user_width_not_kept :
    (deskewSetup Real.cos Real.sin Real.pi sampleOptimalDimension 30 101 256 64
      (1 / 4) (13 / 125)).deskewedXdim = 105 ∧
    (deskewSetup Real.cos Real.sin Real.pi sampleOptimalDimension 30 101 256 64
      (1 / 4) (13 / 125)).deskewedXdim ≠ ((101 : ℕ) : ℤ) := by
  have h : (deskewSetup Real.cos Real.sin Real.pi sampleOptimalDimension 30 101 256 64
      (1 / 4) (13 / 125)).deskewedXdim = 105 := by
    have h0 : |(30 : ℝ)| > 0 := by norm_num
    unfold deskewSetup deskewedXdimArg
    simp only [h0, if_true]
    norm_num
    decide
  exact ⟨h, by rw [h]; norm_num⟩

end MainTheorems

section MainTheoremsReal

end MainTheoremsReal

section MainRefinement

variable {F : Type} [LinearOrderedField F] [FloorRing F]

end MainRefinement

section MainScenario

/-- C8: for deskew angle 30 degrees, pixel size 0.104 and z step 0.25 the
geometry block of `main` sets `deskewFactor = cos(30°)*0.25/0.104`, which
is within 0.001 of 2.082, and the new z step `0.25*sin(30°) = 0.125`; in
general, for a non-zero angle, `deskewFactor = cos(angle)*dz/dr` and the
new `dz` is `dz*sin(angle)`, a negative angle being increased by 180
degrees first. -/
theorem deskew_geometry_scenario (findOptimalDimension : ℤ → ℤ) (w : ℕ) (X nz : ℤ) :
    ((deskewSetup Real.cos Real.sin Real.pi findOptimalDimension 30 w X nz (25 / 100)
        (104 / 1000)).deskewFactor =
      some (Real.cos (Real.pi / 6) * (25 / 100) / (104 / 1000)) ∧
    |Real.cos (Real.pi / 6) * (25 / 100) / (104 / 1000) - 2082 / 1000| < 1 / 1000 ∧
    (deskewSetup Real.cos Real.sin Real.pi findOptimalDimension 30 w X nz (25 / 100)
        (104 / 1000)).dz = 125 / 1000) ∧
    (∀ angle dz dr : ℝ, angle ≠ 0 →
      (deskewSetup Real.cos Real.sin Real.pi findOptimalDimension angle w X nz dz dr).deskewAngle =
        (if angle < 0 then angle + 180 else angle) ∧
      (deskewSetup Real.cos Real.sin Real.pi findOptimalDimension angle w X nz dz
          dr).deskewFactor =
        some (Real.cos ((if angle < 0 then angle + 180 else angle) * Real.pi / 180) * dz / dr) ∧
      (deskewSetup Real.cos Real.sin Real.pi findOptimalDimension angle w X nz dz dr).dz =
        dz * Real.sin ((if angle < 0 then angle + 180 else angle) * Real.pi / 180)) := by
  have hgen : ∀ angle dz dr : ℝ, angle ≠ 0 →
      (deskewSetup Real.cos Real.sin Real.pi findOptimalDimension angle w X nz dz dr).deskewAngle =
        (if angle < 0 then angle + 180 else angle) ∧
      (deskewSetup Real.cos Real.sin Real.pi findOptimalDimension angle w X nz dz
          dr).deskewFactor =
        some (Real.cos ((if angle < 0 then angle + 180 else angle) * Real.pi / 180) * dz / dr) ∧
      (deskewSetup Real.cos Real.sin Real.pi findOptimalDimension angle w X nz dz dr).dz =
        dz * Real.sin ((if angle < 0 then angle + 180 else angle) * Real.pi / 180) := by
    intro angle dz dr hangle
    have h : |angle| > 0 := abs_pos.mpr hangle
    unfold deskewSetup normalizeAngle
    simp only [h, if_true, and_self]
  refine ⟨?_, hgen⟩
  obtain ⟨_, h2, h3⟩ := hgen 30 (25 / 100) (104 / 1000) (by norm_num)
  have h30 : (if (30 : ℝ) < 0 then (30 : ℝ) + 180 else 30) * Real.pi / 180 = Real.pi / 6 := by
    rw [if_neg (by norm_num)]
    ring
  rw [h30] at h2 h3
  refine ⟨h2, ?_, ?_⟩
  · rw [Real.cos_pi_div_six]
    have hlo : (17316 / 10000 : ℝ) < √3 := by
      rw [Real.lt_sqrt (by norm_num)]
      norm_num
    have hhi : √3 < (17325 / 10000 : ℝ) := by
      rw [Real.sqrt_lt' (by norm_num)]
      norm_num
    rw [abs_lt]
    constructor <;> linarith
  · rw [h3, Real.sin_pi_div_six]
    norm_num

end MainScenario

section PerFileTheorems

variable {F : Type} [LinearOrderedField F]

/-- C9 (amended): in iterative mode on the CPU variant, every sample of the
volume handed to `RichardsonLucy` is `max(raw - background, 0)`, hence
non-negative; on the GPU variant the raw volume and the background are
handed to `RichardsonLucy_GPU` as they are; in one-shot mode every sample
handed to the forward transform is `raw - background`, unclamped. -/
theorem perFileHandoff_background (RL_iters : ℤ) (raw_image : CImg F) (background : F) :
    (RL_iters ≠ 0 →
      (∃ v, perFileHandoff RL_iters true raw_image background = Handoff.richardsonLucy v ∧
        ∀ x y z, v.data x y z = max (raw_image.data x y z - background) 0 ∧ 0 ≤ v.data x y z) ∧
      perFileHandoff RL_iters false raw_image background =
        Handoff.richardsonLucyGPU raw_image background) ∧
    (∀ bCPU, ∃ v, perFileHandoff 0 bCPU raw_image background = Handoff.forwardTransform v ∧
      ∀ x y z, v.data x y z = raw_image.data x y z - background) := by
  constructor
  · intro h
    constructor
    · refine ⟨(raw_image.subScalar background).maxScalar 0, ?_, ?_⟩
      · simp [perFileHandoff, h]
      · intro x y z
        exact ⟨rfl, le_max_right _ _⟩
    · simp [perFileHandoff, h]
  · intro bCPU
    exact ⟨raw_image.subScalar background, by simp [perFileHandoff], fun _ _ _ => rfl⟩

/-- C9 (counterexample): 15 iterations on the GPU variant, one sample of
value 100 and background 90: the volume handed to the backend still holds
100, not `max(100 - 90, 0) = 10`. -/
theorem perFileHandoff_gpu_raw :
    (perFileHandoff 15 false (⟨1, 1, 1, fun _ _ _ => 100⟩ : CImg ℚ) 90).volume.data 0 0 0 = 100 ∧
    (perFileHandoff 15 false (⟨1, 1, 1, fun _ _ _ => 100⟩ : CImg ℚ) 90).volume.data 0 0 0 ≠
      max ((⟨1, 1, 1, fun _ _ _ => 100⟩ : CImg ℚ).data 0 0 0 - 90) 0 := by
  have h : (perFileHandoff 15 false (⟨1, 1, 1, fun _ _ _ => 100⟩ : CImg ℚ) 90).volume.data 0 0 0
      = 100 := by
    simp [perFileHandoff, Handoff.volume]
  refine ⟨h, ?_⟩
  rw [h]
  norm_num

end PerFileTheorems

end LinearDecon
